import Mathlib

/-!
Verification of the l1-bridge virtual-chain mirror.

Shallow embedding of `node/l1-bridge/src/chain_block.rs` and
`node/l1-bridge/src/virtual_chain.rs`.

The Rust code keeps the chain as `Arc`-linked `ChainBlock` nodes with two
independently swappable link slots (`prev`, `next`, each `ArcSwapOption`).
We model the block store as an explicit heap: a list of block records
addressed by position (a fresh block is appended at the end, so its id is
the old length).  A link slot holds `Option Nat`, an optional heap id.
All machine integers (`u64` index, blue score) are modelled as `Nat`;
`u64::saturating_sub` is exactly `Nat` subtraction.
A block hash (`kaspa_hashes::Hash`, a fixed-size digest compared by value)
is modelled as `Nat`.

Rust operations that can dereference an invalid id (impossible for `Arc`s,
possible for raw heap ids in the model) or hit the defensive
`expect("tried to rollback root")` failure in `ChainBlock::rollback_tip`
return `none`; every heap-moving public operation returns the full new
state so that frame claims can be stated.
-/

namespace VProgs

/-- Modelled from the spec: `ChainBlockMetadata` (chain_block_metadata.rs) —
an L1 block hash plus a DAG blue score, compared and copied by value. -/
structure ChainBlockMetadata where
  hash : Nat
  blue_score : Nat
deriving DecidableEq, Repr

/-- Modelled from the spec: `Checkpoint<M>` lives in the `vprogs_core_types`
crate, which is not under `src/`; per §3 of the spec it is an immutable pair
of a position index (unsigned integer) and metadata. -/
structure Checkpoint where
  index : Nat
  metadata : ChainBlockMetadata
deriving DecidableEq, Repr

/-- The data of one `ChainBlock`: a checkpoint plus the two link slots. -/
structure BlockData where
  checkpoint : Checkpoint
  prev : Option Nat
  next : Option Nat
deriving DecidableEq, Repr

/-- The block store: blocks addressed by list position. -/
abbrev Heap := List BlockData

/-- Modelled from the spec: the `Error` enum lives in `error.rs`, which is not
under `src/`; its two variants and their fields are fixed by their
construction sites in `virtual_chain.rs` and by §7 of the spec. -/
inductive Error where
  | RollbackPastRoot (target_index root_index : Nat)
  | HashNotFound (hash : Nat)
deriving DecidableEq, Repr

/-! ## Heap accessors and single-slot updates -/

/-- Look a block up by id. -/
def blockAt (h : Heap) (i : Nat) : Option BlockData := h[i]?

/-- The checkpoint of block `i`, if `i` is a valid id. -/
def ckOf (h : Heap) (i : Nat) : Option Checkpoint := (blockAt h i).map (·.checkpoint)

/-- The position index of block `i`. -/
def idxOf (h : Heap) (i : Nat) : Option Nat := (ckOf h i).map (·.index)

/-- The block hash of block `i`. -/
def hashOf (h : Heap) (i : Nat) : Option Nat := (ckOf h i).map (·.metadata.hash)

/-- The `prev` link slot of block `i`. -/
def prevOf (h : Heap) (i : Nat) : Option (Option Nat) := (blockAt h i).map (·.prev)

/-- The `next` link slot of block `i`. -/
def nextOf (h : Heap) (i : Nat) : Option (Option Nat) := (blockAt h i).map (·.next)

/-- Store `v` into the `next` slot of block `i` (`self.next.store(v)`). -/
def setNext (h : Heap) (i : Nat) (v : Option Nat) : Heap :=
  match h[i]? with
  | some bd => h.set i { bd with next := v }
  | none => h

/-- Store `v` into the `prev` slot of block `i` (`self.prev.store(v)`). -/
def setPrev (h : Heap) (i : Nat) (v : Option Nat) : Heap :=
  match h[i]? with
  | some bd => h.set i { bd with prev := v }
  | none => h

/-! ## ChainBlock operations (chain_block.rs) -/

namespace ChainBlock

/-- `ChainBlock::new`: a standalone block with no links. -/
def new (cp : Checkpoint) : BlockData := ⟨cp, none, none⟩

/-- `ChainBlock::advance_tip`: appends a new block at `index + 1` with `self`
as predecessor, links `self.next` to it and returns the new block's id
(`h.length`, the freshly allocated slot). -/
def advance_tip (h : Heap) (b : Nat) (m : ChainBlockMetadata) : Option (Heap × Nat) :=
  match h[b]? with
  | none => none
  | some bd =>
      some (setNext h b (some h.length) ++ [⟨⟨bd.checkpoint.index + 1, m⟩, some b, none⟩],
        h.length)

/-- `ChainBlock::rollback_tip`: takes `self.prev` (clearing it) and clears
the predecessor's `next`, returning the predecessor.  The Rust code hits the
defensive `expect("tried to rollback root")` failure when `prev` is empty;
that case (and an invalid id, which has no Rust counterpart) is `none`. -/
def rollback_tip (h : Heap) (b : Nat) : Option (Heap × Nat) :=
  match (h[b]?).map (·.prev) with
  | none => none
  | some none => none
  | some (some p) => some (setNext (setPrev h b none) p none, p)

/-- `ChainBlock::advance_root`: takes `self.next` (clearing it) and clears
the successor's `prev`, returning the successor or `Option.none` if this was
the tip. -/
def advance_root (h : Heap) (b : Nat) : Option (Heap × Option Nat) :=
  match (h[b]?).map (·.next) with
  | none => none
  | some none => some (setNext h b none, none)
  | some (some n) => some (setPrev (setNext h b none) n none, some n)

end ChainBlock

/-! ## VirtualChain (virtual_chain.rs) -/

/-- `VirtualChain`: the heap of blocks plus the ids of the `root`
(finalization boundary) and `tip` (latest processed) blocks. -/
structure VirtualChain where
  heap : Heap
  root : Nat
  tip : Nat
deriving DecidableEq, Repr

namespace VirtualChain

/-- `VirtualChain::new`: root = tip = a fresh standalone block. -/
def new (cp : Checkpoint) : VirtualChain := ⟨[ChainBlock.new cp], 0, 0⟩

/-- `VirtualChain::root`: checkpoint snapshot of the root block. -/
def root_checkpoint (c : VirtualChain) : Option Checkpoint := ckOf c.heap c.root

/-- `VirtualChain::tip`: checkpoint snapshot of the tip block. -/
def tip_checkpoint (c : VirtualChain) : Option Checkpoint := ckOf c.heap c.tip

/-- `VirtualChain::advance_tip`: extend the mirror by one position and return
the new tip's checkpoint. -/
def advance_tip (c : VirtualChain) (m : ChainBlockMetadata) :
    Option (VirtualChain × Checkpoint) :=
  match ChainBlock.advance_tip c.heap c.tip m with
  | none => none
  | some (h', t') =>
      match ckOf h' t' with
      | none => none
      | some cp => some (⟨h', c.root, t'⟩, cp)

/-- The `for _ in 0..num_checkpoints` loop of `VirtualChain::rollback`:
walk `rollback_tip` from the tip the given number of times. -/
def rollbackLoop : Nat → Heap → Nat → Option (Heap × Nat)
  | 0, h, t => some (h, t)
  | n + 1, h, t =>
      match ChainBlock.rollback_tip h t with
      | none => none
      | some (h', t') => rollbackLoop n h' t'

/-- `VirtualChain::rollback`: `target_index = tip.index.saturating_sub(n)`
(`Nat` subtraction); if `target_index < root.index`, fail with
`RollbackPastRoot` leaving the chain as is; otherwise walk `rollback_tip`
exactly `n` times and report the new tip checkpoint together with
`old_blue_score.saturating_sub(new_blue_score)`. -/
def rollback (c : VirtualChain) (n : Nat) :
    Option (Except Error (Checkpoint × Nat) × VirtualChain) :=
  match ckOf c.heap c.tip, ckOf c.heap c.root with
  | some tcp, some rcp =>
      let target_index := tcp.index - n
      if target_index < rcp.index then
        some (.error (.RollbackPastRoot target_index rcp.index), c)
      else
        let old_blue_score := tcp.metadata.blue_score
        match rollbackLoop n c.heap c.tip with
        | none => none
        | some (h', t') =>
            match ckOf h' t' with
            | none => none
            | some cp =>
                some (.ok (cp, old_blue_score - cp.metadata.blue_score), ⟨h', c.root, t'⟩)
  | _, _ => none

/-- The `while let Some(block) = current` loop of `VirtualChain::advance_root`:
walk forward from the detached successor of the old root, unlinking each
passed block, until the target hash is found (that block becomes the new
root) or the chain is exhausted (`HashNotFound`, fatal).  The Rust loop
terminates because each step clears the `next` slot it follows; the model
carries fuel, and `heap.length` fuel is enough for every linear chain since
ids are distinct heap positions. -/
def advanceRootWalk (hash : Nat) (root tip : Nat) :
    Nat → Heap → Option Nat → Option (Except Error (Option Checkpoint) × VirtualChain)
  | _, h, none => some (.error (.HashNotFound hash), ⟨h, root, tip⟩)
  | 0, _, some _ => none
  | fuel + 1, h, some b =>
      match ckOf h b with
      | none => none
      | some cp =>
          if cp.metadata.hash = hash then some (.ok (some cp), ⟨h, b, tip⟩)
          else
            match ChainBlock.advance_root h b with
            | none => none
            | some (h', cur) => advanceRootWalk hash root tip fuel h' cur

/-- `VirtualChain::advance_root`: no-op (`Ok(None)`) if `hash` is already the
root's hash; otherwise detach the root and walk forward. -/
def advance_root (c : VirtualChain) (hash : Nat) :
    Option (Except Error (Option Checkpoint) × VirtualChain) :=
  match ckOf c.heap c.root with
  | none => none
  | some rcp =>
      if rcp.metadata.hash = hash then some (.ok none, c)
      else
        match ChainBlock.advance_root c.heap c.root with
        | none => none
        | some (h1, cur) => advanceRootWalk hash c.root c.tip c.heap.length h1 cur

end VirtualChain

/-! ## Derived walks and iterated operations (for the spec's §8 properties) -/

/-- Follow `next` links for `n` steps. -/
def nextWalk (h : Heap) : Nat → Nat → Option Nat
  | i, 0 => some i
  | i, n + 1 =>
      match nextOf h i with
      | some (some j) => nextWalk h j n
      | _ => none

/-- Follow `prev` links for `n` steps. -/
def prevWalk (h : Heap) : Nat → Nat → Option Nat
  | i, 0 => some i
  | i, n + 1 =>
      match prevOf h i with
      | some (some j) => prevWalk h j n
      | _ => none

/-- A sequence of `advance_tip` calls, one per metadata value. -/
def advanceTipSeq : VirtualChain → List ChainBlockMetadata → Option VirtualChain
  | c, [] => some c
  | c, m :: ms =>
      match c.advance_tip m with
      | none => none
      | some (c', _) => advanceTipSeq c' ms

/-! ## The linearity invariant -/

/-- Adjacency in the mirror: block `j` directly follows block `i` — mutual
links and consecutive indices. -/
abbrev LinkIdx (h : Heap) (i j : Nat) : Prop :=
  nextOf h i = some (some j) ∧ prevOf h j = some (some i) ∧
  idxOf h j = (idxOf h i).map (· + 1)

/-- `ids` lists the heap ids of the chain from root to tip, in order: the
spec's §3 invariant of `VirtualChain` (strict linearity between `root` and
`tip`). -/
structure IsChain (c : VirtualChain) (ids : List Nat) : Prop where
  head_eq : ids.head? = some c.root
  last_eq : ids.getLast? = some c.tip
  chain : List.Chain' (LinkIdx c.heap) ids
  root_prev : prevOf c.heap c.root = some none
  tip_next : nextOf c.heap c.tip = some none
  nodup : ids.Nodup
  bounds : ∀ i ∈ ids, i < c.heap.length

/-- Link-reachability: every block that can be found from `s` by following
`prev` and `next` slots. -/
inductive Reaches (h : Heap) : Nat → Nat → Prop
  | refl (i : Nat) : Reaches h i i
  | via_next {i j k : Nat} : nextOf h i = some (some j) → Reaches h j k → Reaches h i k
  | via_prev {i j k : Nat} : prevOf h i = some (some j) → Reaches h j k → Reaches h i k

/-- States reachable from `VirtualChain::new` by successful public
operations. -/
inductive Reachable : VirtualChain → Prop
  | base (cp : Checkpoint) : Reachable (VirtualChain.new cp)
  | tip_step {c c' : VirtualChain} {m : ChainBlockMetadata} {cp : Checkpoint} :
      Reachable c → c.advance_tip m = some (c', cp) → Reachable c'
  | rollback_step {c c' : VirtualChain} {n : Nat} {res : Checkpoint × Nat} :
      Reachable c → c.rollback n = some (.ok res, c') → Reachable c'
  | root_step {c c' : VirtualChain} {hsh : Nat} {res : Option Checkpoint} :
      Reachable c → c.advance_root hsh = some (.ok res, c') → Reachable c'

/-! ## Pointwise lemmas about the heap primitives -/

theorem length_setNext (h : Heap) (i : Nat) (v : Option Nat) :
    (setNext h i v).length = h.length := by
  unfold setNext; split <;> simp

theorem length_setPrev (h : Heap) (i : Nat) (v : Option Nat) :
    (setPrev h i v).length = h.length := by
  unfold setPrev; split <;> simp

theorem blockAt_setNext_self (h : Heap) (i : Nat) (v : Option Nat) :
    blockAt (setNext h i v) i = (blockAt h i).map (fun bd => { bd with next := v }) := by
  unfold setNext blockAt
  rcases hx : h[i]? with _ | bd
  · simp [hx]
  · have hlt : i < h.length := (List.getElem?_eq_some_iff.mp hx).1
    simp [hx, List.getElem?_set_self hlt]

theorem blockAt_setNext_ne (h : Heap) (i : Nat) (v : Option Nat) (j : Nat) (hj : j ≠ i) :
    blockAt (setNext h i v) j = blockAt h j := by
  unfold setNext blockAt
  rcases hx : h[i]? with _ | bd
  · rfl
  · exact List.getElem?_set_ne (fun he => hj he.symm)

theorem blockAt_setPrev_self (h : Heap) (i : Nat) (v : Option Nat) :
    blockAt (setPrev h i v) i = (blockAt h i).map (fun bd => { bd with prev := v }) := by
  unfold setPrev blockAt
  rcases hx : h[i]? with _ | bd
  · simp [hx]
  · have hlt : i < h.length := (List.getElem?_eq_some_iff.mp hx).1
    simp [hx, List.getElem?_set_self hlt]

theorem blockAt_setPrev_ne (h : Heap) (i : Nat) (v : Option Nat) (j : Nat) (hj : j ≠ i) :
    blockAt (setPrev h i v) j = blockAt h j := by
  unfold setPrev blockAt
  rcases hx : h[i]? with _ | bd
  · rfl
  · exact List.getElem?_set_ne (fun he => hj he.symm)

theorem ckOf_setNext (h : Heap) (i : Nat) (v : Option Nat) (j : Nat) :
    ckOf (setNext h i v) j = ckOf h j := by
  unfold ckOf
  by_cases hj : j = i
  · subst hj; rw [blockAt_setNext_self]; cases blockAt h j <;> rfl
  · rw [blockAt_setNext_ne _ _ _ _ hj]

theorem ckOf_setPrev (h : Heap) (i : Nat) (v : Option Nat) (j : Nat) :
    ckOf (setPrev h i v) j = ckOf h j := by
  unfold ckOf
  by_cases hj : j = i
  · subst hj; rw [blockAt_setPrev_self]; cases blockAt h j <;> rfl
  · rw [blockAt_setPrev_ne _ _ _ _ hj]

theorem idxOf_setNext (h : Heap) (i : Nat) (v : Option Nat) (j : Nat) :
    idxOf (setNext h i v) j = idxOf h j := by
  unfold idxOf; rw [ckOf_setNext]

theorem idxOf_setPrev (h : Heap) (i : Nat) (v : Option Nat) (j : Nat) :
    idxOf (setPrev h i v) j = idxOf h j := by
  unfold idxOf; rw [ckOf_setPrev]

theorem hashOf_setNext (h : Heap) (i : Nat) (v : Option Nat) (j : Nat) :
    hashOf (setNext h i v) j = hashOf h j := by
  unfold hashOf; rw [ckOf_setNext]

theorem hashOf_setPrev (h : Heap) (i : Nat) (v : Option Nat) (j : Nat) :
    hashOf (setPrev h i v) j = hashOf h j := by
  unfold hashOf; rw [ckOf_setPrev]

theorem prevOf_setNext (h : Heap) (i : Nat) (v : Option Nat) (j : Nat) :
    prevOf (setNext h i v) j = prevOf h j := by
  unfold prevOf
  by_cases hj : j = i
  · subst hj; rw [blockAt_setNext_self]; cases blockAt h j <;> rfl
  · rw [blockAt_setNext_ne _ _ _ _ hj]

theorem nextOf_setPrev (h : Heap) (i : Nat) (v : Option Nat) (j : Nat) :
    nextOf (setPrev h i v) j = nextOf h j := by
  unfold nextOf
  by_cases hj : j = i
  · subst hj; rw [blockAt_setPrev_self]; cases blockAt h j <;> rfl
  · rw [blockAt_setPrev_ne _ _ _ _ hj]

theorem nextOf_setNext_ne (h : Heap) (i : Nat) (v : Option Nat) (j : Nat) (hj : j ≠ i) :
    nextOf (setNext h i v) j = nextOf h j := by
  unfold nextOf; rw [blockAt_setNext_ne _ _ _ _ hj]

theorem nextOf_setNext_self (h : Heap) (i : Nat) (v : Option Nat) :
    nextOf (setNext h i v) i = (blockAt h i).map (fun _ => v) := by
  unfold nextOf; rw [blockAt_setNext_self]; cases blockAt h i <;> rfl

theorem prevOf_setPrev_ne (h : Heap) (i : Nat) (v : Option Nat) (j : Nat) (hj : j ≠ i) :
    prevOf (setPrev h i v) j = prevOf h j := by
  unfold prevOf; rw [blockAt_setPrev_ne _ _ _ _ hj]

theorem prevOf_setPrev_self (h : Heap) (i : Nat) (v : Option Nat) :
    prevOf (setPrev h i v) i = (blockAt h i).map (fun _ => v) := by
  unfold prevOf; rw [blockAt_setPrev_self]; cases blockAt h i <;> rfl

theorem blockAt_append_lt (h l : Heap) (j : Nat) (hj : j < h.length) :
    blockAt (h ++ l) j = blockAt h j := by
  unfold blockAt; rw [List.getElem?_append]; simp [hj]

theorem blockAt_concat_self (h : Heap) (b : BlockData) :
    blockAt (h ++ [b]) h.length = some b := by
  unfold blockAt; exact List.getElem?_concat_length h b

theorem blockAt_some_lt {h : Heap} {i : Nat} {bd : BlockData} (hx : blockAt h i = some bd) :
    i < h.length := (List.getElem?_eq_some_iff.mp hx).1

theorem ckOf_some_blockAt {h : Heap} {i : Nat} {cp : Checkpoint} (hc : ckOf h i = some cp) :
    ∃ bd, blockAt h i = some bd ∧ bd.checkpoint = cp := by
  unfold ckOf at hc
  rcases hx : blockAt h i with _ | bd
  · rw [hx] at hc; cases hc
  · rw [hx] at hc; exact ⟨bd, rfl, by injection hc⟩

theorem prevOf_some_blockAt {h : Heap} {i : Nat} {v : Option Nat} (hp : prevOf h i = some v) :
    ∃ bd, blockAt h i = some bd ∧ bd.prev = v := by
  unfold prevOf at hp
  rcases hx : blockAt h i with _ | bd
  · rw [hx] at hp; cases hp
  · rw [hx] at hp; exact ⟨bd, rfl, by injection hp⟩

theorem nextOf_some_blockAt {h : Heap} {i : Nat} {v : Option Nat} (hn : nextOf h i = some v) :
    ∃ bd, blockAt h i = some bd ∧ bd.next = v := by
  unfold nextOf at hn
  rcases hx : blockAt h i with _ | bd
  · rw [hx] at hn; cases hn
  · rw [hx] at hn; exact ⟨bd, rfl, by injection hn⟩

/-! ## Position lemmas for chains of linked blocks -/

theorem chain'_pair {R : Nat → Nat → Prop} {l : List Nat} (hc : List.Chain' R l)
    {k x y : Nat} (hx : l[k]? = some x) (hy : l[k + 1]? = some y) : R x y := by
  obtain ⟨hk, hx⟩ := List.getElem?_eq_some_iff.mp hx
  obtain ⟨hk1, hy⟩ := List.getElem?_eq_some_iff.mp hy
  have := List.chain'_iff_get.mp hc k (by omega)
  simpa [List.get_eq_getElem, hx, hy] using this

theorem chain'_congr_mem {R S : Nat → Nat → Prop} :
    ∀ {l : List Nat}, List.Chain' R l →
      (∀ x y, x ∈ l → y ∈ l → R x y → S x y) → List.Chain' S l
  | [], _, _ => List.chain'_nil
  | [a], _, _ => List.chain'_singleton a
  | a :: b :: t, hc, himp => by
      rw [List.chain'_cons] at hc ⊢
      refine ⟨himp a b (by simp) (by simp) hc.1, chain'_congr_mem hc.2 ?_⟩
      exact fun x y hx hy => himp x y (List.mem_cons_of_mem a hx) (List.mem_cons_of_mem a hy)

theorem chain_idx {h : Heap} {l : List Nat} (hc : List.Chain' (LinkIdx h) l)
    {r a : Nat} (ha : l[0]? = some a) (hr : idxOf h a = some r) :
    ∀ k x, l[k]? = some x → idxOf h x = some (r + k) := by
  intro k
  induction k with
  | zero =>
      intro x hx
      rw [ha] at hx
      injection hx with hx
      subst hx
      simpa using hr
  | succ k ih =>
      intro x hx
      have hk1 : k + 1 < l.length := (List.getElem?_eq_some_iff.mp hx).1
      have hk : k < l.length := by omega
      obtain ⟨y, hy⟩ : ∃ y, l[k]? = some y := ⟨l[k], List.getElem?_eq_getElem hk⟩
      have hxy := chain'_pair hc hy hx
      have hidy := ih y hy
      have : idxOf h x = (idxOf h y).map (· + 1) := hxy.2.2
      rw [hidy] at this
      simpa [Nat.add_assoc] using this

theorem chain_nextWalk {h : Heap} {l : List Nat} (hc : List.Chain' (LinkIdx h) l) :
    ∀ j k x y, l[k]? = some x → l[k + j]? = some y → nextWalk h x j = some y := by
  intro j
  induction j with
  | zero =>
      intro k x y hx hy
      rw [Nat.add_zero, hx] at hy
      injection hy with hy
      subst hy
      rfl
  | succ j ih =>
      intro k x y hx hy
      have hlen : k + j + 1 < l.length := by
        have := (List.getElem?_eq_some_iff.mp hy).1; omega
      obtain ⟨z, hz⟩ : ∃ z, l[k + 1]? = some z := ⟨l[k + 1], List.getElem?_eq_getElem (by omega)⟩
      have hxz := chain'_pair hc hx hz
      have : nextWalk h x (j + 1) = nextWalk h z j := by
        simp only [nextWalk, hxz.1]
      rw [this]
      exact ih (k + 1) z y hz (by rw [show k + 1 + j = k + (j + 1) by omega]; exact hy)

theorem chain_prevWalk {h : Heap} {l : List Nat} (hc : List.Chain' (LinkIdx h) l) :
    ∀ j k x y, l[k]? = some x → l[k + j]? = some y → prevWalk h y j = some x := by
  intro j
  induction j with
  | zero =>
      intro k x y hx hy
      rw [Nat.add_zero, hx] at hy
      injection hy with hy
      subst hy
      rfl
  | succ j ih =>
      intro k x y hx hy
      have hlen : k + j + 1 < l.length := by
        have := (List.getElem?_eq_some_iff.mp hy).1; omega
      obtain ⟨z, hz⟩ : ∃ z, l[k + j]? = some z := ⟨l[k + j], List.getElem?_eq_getElem (by omega)⟩
      have hzy := chain'_pair hc hz (by rw [show k + j + 1 = k + (j + 1) by omega]; exact hy)
      have : prevWalk h y (j + 1) = prevWalk h z j := by
        simp only [prevWalk, hzy.2.1]
      rw [this]
      exact ih k x z hx hz

/-! ## Derived facts about the linearity invariant -/

theorem IsChain.ne_nil {c : VirtualChain} {ids : List Nat} (hch : IsChain c ids) :
    ids ≠ [] := by
  intro he; rw [he] at hch; cases hch.head_eq

theorem IsChain.root_at_zero {c : VirtualChain} {ids : List Nat} (hch : IsChain c ids) :
    ids[0]? = some c.root := by
  rw [← List.head?_eq_getElem?]; exact hch.head_eq

theorem IsChain.tip_at_last {c : VirtualChain} {ids : List Nat} (hch : IsChain c ids) :
    ids[ids.length - 1]? = some c.tip := by
  rw [← List.getLast?_eq_getElem?]; exact hch.last_eq

theorem IsChain.root_mem {c : VirtualChain} {ids : List Nat} (hch : IsChain c ids) :
    c.root ∈ ids :=
  List.mem_iff_getElem?.mpr ⟨0, hch.root_at_zero⟩

theorem IsChain.tip_mem {c : VirtualChain} {ids : List Nat} (hch : IsChain c ids) :
    c.tip ∈ ids :=
  List.mem_iff_getElem?.mpr ⟨ids.length - 1, hch.tip_at_last⟩

theorem IsChain.root_block {c : VirtualChain} {ids : List Nat} (hch : IsChain c ids) :
    ∃ bd, blockAt c.heap c.root = some bd ∧ bd.prev = none := by
  obtain ⟨bd, hbd, hp⟩ := prevOf_some_blockAt hch.root_prev
  exact ⟨bd, hbd, hp⟩

theorem IsChain.tip_block {c : VirtualChain} {ids : List Nat} (hch : IsChain c ids) :
    ∃ bd, blockAt c.heap c.tip = some bd ∧ bd.next = none := by
  obtain ⟨bd, hbd, hn⟩ := nextOf_some_blockAt hch.tip_next
  exact ⟨bd, hbd, hn⟩

theorem IsChain.root_idx {c : VirtualChain} {ids : List Nat} (hch : IsChain c ids) :
    ∃ r, idxOf c.heap c.root = some r := by
  obtain ⟨bd, hbd, -⟩ := hch.root_block
  exact ⟨bd.checkpoint.index, by unfold idxOf ckOf; rw [hbd]; rfl⟩

theorem IsChain.idx_at {c : VirtualChain} {ids : List Nat} (hch : IsChain c ids)
    {r : Nat} (hr : idxOf c.heap c.root = some r) :
    ∀ k x, ids[k]? = some x → idxOf c.heap x = some (r + k) :=
  chain_idx hch.chain hch.root_at_zero hr

theorem IsChain.len_eq {c : VirtualChain} {ids : List Nat} (hch : IsChain c ids)
    {r : Nat} (hr : idxOf c.heap c.root = some r) :
    ∃ k, idxOf c.heap c.tip = some k ∧ r ≤ k ∧ ids.length = k - r + 1 := by
  have hlen : 0 < ids.length := List.length_pos.mpr hch.ne_nil
  have htip := hch.idx_at hr (ids.length - 1) c.tip hch.tip_at_last
  exact ⟨r + (ids.length - 1), htip, by omega, by omega⟩

theorem IsChain.next_mem {c : VirtualChain} {ids : List Nat} (hch : IsChain c ids)
    {x w : Nat} (hx : x ∈ ids) (hw : nextOf c.heap x = some (some w)) : w ∈ ids := by
  obtain ⟨k, hk⟩ := List.mem_iff_getElem?.mp hx
  have hklen : k < ids.length := (List.getElem?_eq_some_iff.mp hk).1
  by_cases hlast : k = ids.length - 1
  · subst hlast
    rw [hch.tip_at_last] at hk
    injection hk with hk
    subst hk
    rw [hch.tip_next] at hw
    cases hw
  · have hb : k + 1 < ids.length := by omega
    obtain ⟨y, hy⟩ : ∃ y, ids[k + 1]? = some y :=
      ⟨ids[k + 1], List.getElem?_eq_getElem hb⟩
    have hp := chain'_pair hch.chain hk hy
    rw [hp.1] at hw
    injection hw with hw
    injection hw with hw
    subst hw
    exact List.mem_iff_getElem?.mpr ⟨k + 1, hy⟩

theorem IsChain.prev_mem {c : VirtualChain} {ids : List Nat} (hch : IsChain c ids)
    {x w : Nat} (hx : x ∈ ids) (hw : prevOf c.heap x = some (some w)) : w ∈ ids := by
  obtain ⟨k, hk⟩ := List.mem_iff_getElem?.mp hx
  match k, hk with
  | 0, hk =>
      rw [hch.root_at_zero] at hk
      injection hk with hk
      subst hk
      rw [hch.root_prev] at hw
      cases hw
  | k + 1, hk =>
      have hklen : k + 1 < ids.length := (List.getElem?_eq_some_iff.mp hk).1
      have hb : k < ids.length := by omega
      obtain ⟨y, hy⟩ : ∃ y, ids[k]? = some y :=
        ⟨ids[k], List.getElem?_eq_getElem hb⟩
      have hp := chain'_pair hch.chain hy hk
      rw [hp.2.1] at hw
      injection hw with hw
      injection hw with hw
      subst hw
      exact List.mem_iff_getElem?.mpr ⟨k, hy⟩

theorem IsChain.closed {c : VirtualChain} {ids : List Nat} (hch : IsChain c ids)
    {s y : Nat} (hr : Reaches c.heap s y) : s ∈ ids → y ∈ ids := by
  induction hr with
  | refl i => exact id
  | via_next hn _ ih => exact fun hs => ih (hch.next_mem hs hn)
  | via_prev hp _ ih => exact fun hs => ih (hch.prev_mem hs hp)

theorem nodup_length_le {l : List Nat} (hn : l.Nodup) {N : Nat}
    (hb : ∀ x ∈ l, x < N) : l.length ≤ N := by
  have h1 : l.toFinset.card = l.length := List.toFinset_card_of_nodup hn
  have h2 : l.toFinset ⊆ Finset.range N := by
    intro x hx
    exact Finset.mem_range.mpr (hb x (List.mem_toFinset.mp hx))
  have := Finset.card_le_card h2
  simpa [h1] using this

theorem exists_concat_two (l : List Nat) (hl : 2 ≤ l.length) :
    ∃ front p t, l = front ++ [p, t] := by
  rcases l.eq_nil_or_concat with rfl | ⟨l₁, t, rfl⟩
  · simp at hl
  · rcases l₁.eq_nil_or_concat with rfl | ⟨l₂, p, rfl⟩
    · simp at hl
    · exact ⟨l₂, p, t, by simp⟩

/-! ## Preservation of the invariant by advance_tip -/

theorem advance_tip_isChain {c : VirtualChain} {ids : List Nat} (hch : IsChain c ids)
    {m : ChainBlockMetadata} {td : BlockData} (htd : blockAt c.heap c.tip = some td) :
    IsChain ⟨setNext c.heap c.tip (some c.heap.length) ++
      [⟨⟨td.checkpoint.index + 1, m⟩, some c.tip, none⟩], c.root, c.heap.length⟩
      (ids ++ [c.heap.length]) := by
  have htip_lt : c.tip < c.heap.length := blockAt_some_lt htd
  -- abbreviations for the new tip block and heap
  have hbL : blockAt (setNext c.heap c.tip (some c.heap.length) ++
      [⟨⟨td.checkpoint.index + 1, m⟩, some c.tip, none⟩]) c.heap.length =
      some ⟨⟨td.checkpoint.index + 1, m⟩, some c.tip, none⟩ := by
    have hb := blockAt_concat_self (setNext c.heap c.tip (some c.heap.length))
      (⟨⟨td.checkpoint.index + 1, m⟩, some c.tip, none⟩ : BlockData)
    rw [length_setNext] at hb
    exact hb
  have hba : ∀ j, j < c.heap.length →
      blockAt (setNext c.heap c.tip (some c.heap.length) ++
        [⟨⟨td.checkpoint.index + 1, m⟩, some c.tip, none⟩]) j =
      blockAt (setNext c.heap c.tip (some c.heap.length)) j := by
    intro j hj
    exact blockAt_append_lt _ _ j (by rw [length_setNext]; exact hj)
  have hck : ∀ j, j < c.heap.length →
      ckOf (setNext c.heap c.tip (some c.heap.length) ++
        [⟨⟨td.checkpoint.index + 1, m⟩, some c.tip, none⟩]) j = ckOf c.heap j := by
    intro j hj
    unfold ckOf
    rw [hba j hj]
    exact ckOf_setNext c.heap c.tip (some c.heap.length) j
  have hprev : ∀ j, j < c.heap.length →
      prevOf (setNext c.heap c.tip (some c.heap.length) ++
        [⟨⟨td.checkpoint.index + 1, m⟩, some c.tip, none⟩]) j = prevOf c.heap j := by
    intro j hj
    unfold prevOf
    rw [hba j hj]
    exact prevOf_setNext c.heap c.tip (some c.heap.length) j
  have hnext : ∀ j, j < c.heap.length → j ≠ c.tip →
      nextOf (setNext c.heap c.tip (some c.heap.length) ++
        [⟨⟨td.checkpoint.index + 1, m⟩, some c.tip, none⟩]) j = nextOf c.heap j := by
    intro j hj hjt
    unfold nextOf
    rw [hba j hj]
    exact nextOf_setNext_ne c.heap c.tip (some c.heap.length) j hjt
  have hnexttip : nextOf (setNext c.heap c.tip (some c.heap.length) ++
      [⟨⟨td.checkpoint.index + 1, m⟩, some c.tip, none⟩]) c.tip =
      some (some c.heap.length) := by
    unfold nextOf
    rw [hba c.tip htip_lt, blockAt_setNext_self, htd]
    rfl
  refine ⟨?_, ?_, ?_, ?_, ?_, ?_, ?_⟩
  · -- head
    simp [List.head?_append, hch.head_eq]
  · -- last
    exact List.getLast?_concat ids
  · -- chain
    refine List.chain'_append.mpr ⟨?_, List.chain'_singleton _, ?_⟩
    · refine chain'_congr_mem hch.chain ?_
      intro x y hx hy hR
      obtain ⟨hR1, hR2, hR3⟩ := hR
      have hxtip : x ≠ c.tip := by
        intro he
        rw [he, hch.tip_next] at hR1
        cases hR1
      have hxlt : x < c.heap.length := hch.bounds x hx
      have hylt : y < c.heap.length := hch.bounds y hy
      refine ⟨?_, ?_, ?_⟩
      · rw [hnext x hxlt hxtip]; exact hR1
      · rw [hprev y hylt]; exact hR2
      · unfold idxOf
        rw [hck x hxlt, hck y hylt]
        exact hR3
    · intro a ha b hb
      rw [hch.last_eq] at ha
      injection ha with ha
      subst ha
      simp only [List.head?_cons, Option.mem_def, Option.some.injEq] at hb
      subst hb
      refine ⟨hnexttip, ?_, ?_⟩
      · unfold prevOf; rw [hbL]; rfl
      · unfold idxOf
        rw [hck c.tip htip_lt]
        unfold ckOf
        rw [hbL, htd]
        rfl
  · -- root_prev
    have hrlt : c.root < c.heap.length := hch.bounds c.root hch.root_mem
    show prevOf _ c.root = some none
    rw [hprev c.root hrlt]
    exact hch.root_prev
  · -- tip_next
    show nextOf _ c.heap.length = some none
    unfold nextOf
    rw [hbL]
    rfl
  · -- nodup
    rw [List.nodup_append]
    refine ⟨hch.nodup, List.nodup_singleton _, ?_⟩
    intro x hx hx'
    have := hch.bounds x hx
    simp only [List.mem_singleton] at hx'
    omega
  · -- bounds
    intro i hi
    show i < (setNext c.heap c.tip (some c.heap.length) ++ _).length
    rw [List.length_append, length_setNext]
    rcases List.mem_append.mp hi with hi | hi
    · have := hch.bounds i hi; simp; omega
    · simp only [List.mem_singleton] at hi; subst hi; simp

theorem advance_tip_pres {c : VirtualChain} {ids : List Nat} (hch : IsChain c ids)
    (m : ChainBlockMetadata) :
    ∃ c₂ cp₂, c.advance_tip m = some (c₂, cp₂) ∧
      IsChain c₂ (ids ++ [c.heap.length]) ∧
      c₂.root = c.root ∧ c₂.tip = c.heap.length ∧
      c₂.heap.length = c.heap.length + 1 ∧
      (∀ j, j < c.heap.length → ckOf c₂.heap j = ckOf c.heap j) ∧
      idxOf c₂.heap c₂.tip = (idxOf c.heap c.tip).map (· + 1) := by
  obtain ⟨td, htd, htdnext⟩ := hch.tip_block
  have htd' : c.heap[c.tip]? = some td := htd
  have htip_lt : c.tip < c.heap.length := blockAt_some_lt htd
  refine ⟨⟨setNext c.heap c.tip (some c.heap.length) ++
      [⟨⟨td.checkpoint.index + 1, m⟩, some c.tip, none⟩], c.root, c.heap.length⟩,
    ⟨td.checkpoint.index + 1, m⟩, ?_, ?_, rfl, rfl, ?_, ?_, ?_⟩
  case _ =>
    -- the computation of advance_tip
    have h1 : ChainBlock.advance_tip c.heap c.tip m =
        some (setNext c.heap c.tip (some c.heap.length) ++
          [⟨⟨td.checkpoint.index + 1, m⟩, some c.tip, none⟩], c.heap.length) := by
      simp only [ChainBlock.advance_tip, htd']
    have h2 : ckOf (setNext c.heap c.tip (some c.heap.length) ++
        [⟨⟨td.checkpoint.index + 1, m⟩, some c.tip, none⟩]) c.heap.length =
        some ⟨td.checkpoint.index + 1, m⟩ := by
      have hb := blockAt_concat_self (setNext c.heap c.tip (some c.heap.length))
        (⟨⟨td.checkpoint.index + 1, m⟩, some c.tip, none⟩ : BlockData)
      rw [length_setNext] at hb
      unfold ckOf
      rw [hb]
      rfl
    simp only [VirtualChain.advance_tip, h1, h2]
  case _ => exact advance_tip_isChain hch htd
  case _ => simp [length_setNext]
  case _ =>
    intro j hj
    unfold ckOf
    rw [blockAt_append_lt _ _ j (by rw [length_setNext]; exact hj)]
    exact ckOf_setNext c.heap c.tip (some c.heap.length) j
  case _ =>
    have hb := blockAt_concat_self (setNext c.heap c.tip (some c.heap.length))
      (⟨⟨td.checkpoint.index + 1, m⟩, some c.tip, none⟩ : BlockData)
    rw [length_setNext] at hb
    unfold idxOf ckOf
    rw [hb, htd]
    rfl

/-! ## Preservation of the invariant by rollback -/

theorem rollback_tip_pres {c : VirtualChain} {front : List Nat} {p : Nat}
    (hch : IsChain c (front ++ [p, c.tip])) :
    ChainBlock.rollback_tip c.heap c.tip =
      some (setNext (setPrev c.heap c.tip none) p none, p) ∧
    IsChain ⟨setNext (setPrev c.heap c.tip none) p none, c.root, p⟩ (front ++ [p]) ∧
    (∀ j, ckOf (setNext (setPrev c.heap c.tip none) p none) j = ckOf c.heap j) ∧
    (setNext (setPrev c.heap c.tip none) p none).length = c.heap.length := by
  -- the last adjacent pair of the chain
  have hpget : (front ++ [p, c.tip])[front.length]? = some p := by
    rw [List.getElem?_append]; simp
  have htget : (front ++ [p, c.tip])[front.length + 1]? = some c.tip := by
    rw [List.getElem?_append]; simp
  have hpt : LinkIdx c.heap p c.tip := chain'_pair hch.chain hpget htget
  obtain ⟨hptn, hptp, -⟩ := hpt
  obtain ⟨td, htd, htdp⟩ := prevOf_some_blockAt hptp
  obtain ⟨pd, hpd, -⟩ := nextOf_some_blockAt hptn
  have htd' : c.heap[c.tip]? = some td := htd
  -- distinctness facts
  have hnd := hch.nodup
  rw [List.nodup_append] at hnd
  obtain ⟨hndf, hndpt, hdisj⟩ := hnd
  have hpt_ne : p ≠ c.tip := by simpa using hndpt
  have htip_notin : c.tip ∉ front ++ [p] := by
    intro hx
    rcases List.mem_append.mp hx with hx | hx
    · exact hdisj hx (by simp)
    · simp only [List.mem_singleton] at hx; exact hpt_ne hx.symm
  -- pointwise description of the updated heap
  have hck' : ∀ j, ckOf (setNext (setPrev c.heap c.tip none) p none) j = ckOf c.heap j := by
    intro j
    rw [ckOf_setNext, ckOf_setPrev]
  have hlen' : (setNext (setPrev c.heap c.tip none) p none).length = c.heap.length := by
    rw [length_setNext, length_setPrev]
  have hprev' : ∀ j, j ≠ c.tip →
      prevOf (setNext (setPrev c.heap c.tip none) p none) j = prevOf c.heap j := by
    intro j hj
    rw [prevOf_setNext, prevOf_setPrev_ne _ _ _ _ hj]
  have hnext' : ∀ j, j ≠ p →
      nextOf (setNext (setPrev c.heap c.tip none) p none) j = nextOf c.heap j := by
    intro j hj
    rw [nextOf_setNext_ne _ _ _ _ hj, nextOf_setPrev]
  have hnextp : nextOf (setNext (setPrev c.heap c.tip none) p none) p = some none := by
    rw [nextOf_setNext_self]
    rw [blockAt_setPrev_ne _ _ _ _ hpt_ne, hpd]
    rfl
  refine ⟨?_, ?_, hck', hlen'⟩
  · simp [ChainBlock.rollback_tip, htd', htdp]
  · -- the invariant for the shortened chain
    have hhead : (front ++ [p]).head? = some c.root := by
      rcases front with _ | ⟨f, fr⟩
      · simpa using hch.head_eq
      · simpa using hch.head_eq
    have hroot_mem : c.root ∈ front ++ [p] := by
      rcases hhd : (front ++ [p]) with _ | ⟨a, l⟩
      · rw [hhd] at hhead; cases hhead
      · rw [hhd] at hhead
        simp only [List.head?_cons] at hhead
        injection hhead with hhead
        subst hhead
        simp
    have hroot_ne : c.root ≠ c.tip := by
      intro he
      rw [← he] at htip_notin
      exact htip_notin hroot_mem
    refine ⟨hhead, List.getLast?_concat front, ?_, ?_, hnextp, ?_, ?_⟩
    · -- chain
      have hassoc : front ++ [p, c.tip] = (front ++ [p]) ++ [c.tip] := by simp
      have hchain0 : List.Chain' (LinkIdx c.heap) (front ++ [p]) := by
        have := hch.chain
        rw [hassoc] at this
        exact (List.chain'_append.mp this).1
      refine chain'_congr_mem hchain0 ?_
      intro x y hx hy hR
      obtain ⟨hR1, hR2, hR3⟩ := hR
      have hxp : x ≠ p := by
        intro he
        rw [he, hptn] at hR1
        injection hR1 with hR1
        injection hR1 with hR1
        rw [hR1] at htip_notin
        exact htip_notin hy
      have hyt : y ≠ c.tip := by
        intro he
        rw [he] at hy
        exact htip_notin hy
      exact ⟨by rw [hnext' x hxp]; exact hR1, by rw [hprev' y hyt]; exact hR2,
        by unfold idxOf; rw [hck' x, hck' y]; exact hR3⟩
    · -- root_prev
      show prevOf _ c.root = some none
      rw [hprev' c.root hroot_ne]
      exact hch.root_prev
    · -- nodup
      have hassoc : front ++ [p, c.tip] = (front ++ [p]) ++ [c.tip] := by simp
      have := hch.nodup
      rw [hassoc] at this
      exact (List.sublist_append_left (front ++ [p]) [c.tip]).nodup this
    · -- bounds
      intro i hi
      show i < (setNext (setPrev c.heap c.tip none) p none).length
      rw [hlen']
      refine hch.bounds i ?_
      rcases List.mem_append.mp hi with hi | hi
      · exact List.mem_append.mpr (Or.inl hi)
      · simp only [List.mem_singleton] at hi
        subst hi
        simp

theorem rollbackLoop_spec (m : Nat) :
    ∀ {c : VirtualChain} {ids : List Nat}, IsChain c ids → m + 1 ≤ ids.length →
    ∃ h' t', VirtualChain.rollbackLoop m c.heap c.tip = some (h', t') ∧
      IsChain ⟨h', c.root, t'⟩ (ids.take (ids.length - m)) ∧
      (∀ j, ckOf h' j = ckOf c.heap j) ∧
      ids[ids.length - 1 - m]? = some t' ∧ h'.length = c.heap.length := by
  induction m with
  | zero =>
      intro c ids hch hm
      refine ⟨c.heap, c.tip, rfl, ?_, fun j => rfl, ?_, rfl⟩
      · rw [Nat.sub_zero, List.take_length]
        exact hch
      · rw [Nat.sub_zero]
        exact hch.tip_at_last
  | succ m ih =>
      intro c ids hch hm
      obtain ⟨front, p, t, hids⟩ := exists_concat_two ids (by omega)
      subst hids
      have ht : t = c.tip := by
        have hlast := hch.last_eq
        rw [show front ++ [p, t] = (front ++ [p]) ++ [t] by simp,
          List.getLast?_concat] at hlast
        injection hlast
      subst ht
      obtain ⟨hstep, hch', hck', hlen'⟩ := rollback_tip_pres hch
      have hloop : VirtualChain.rollbackLoop (m + 1) c.heap c.tip =
          VirtualChain.rollbackLoop m (setNext (setPrev c.heap c.tip none) p none) p := by
        simp only [VirtualChain.rollbackLoop, hstep]
      have hmlen : (front ++ [p, c.tip]).length = front.length + 2 := by simp
      obtain ⟨h', t', hloop', hch'', hck'', hidx'', hlen''⟩ :=
        ih hch' (by
          simp only [List.length_append, List.length_cons, List.length_nil] at hm ⊢
          omega)
      refine ⟨h', t', by rw [hloop]; exact hloop', ?_, ?_, ?_, ?_⟩
      · -- the take over the original list equals the take over the shortened list
        have htake : (front ++ [p, c.tip]).take ((front ++ [p, c.tip]).length - (m + 1)) =
            (front ++ [p]).take ((front ++ [p]).length - m) := by
          rw [show front ++ [p, c.tip] = (front ++ [p]) ++ [c.tip] by simp]
          rw [List.take_append_of_le_length (by
            simp only [List.length_append, List.length_cons, List.length_nil]
            omega)]
          congr 1
          simp only [List.length_append, List.length_cons, List.length_nil]
          omega
        rw [htake]
        exact hch''
      · intro j
        rw [hck'' j, hck' j]
      · have hpos : (front ++ [p, c.tip]).length - 1 - (m + 1) =
            (front ++ [p]).length - 1 - m := by
          simp only [List.length_append, List.length_cons, List.length_nil]
          omega
        rw [hpos, show front ++ [p, c.tip] = (front ++ [p]) ++ [c.tip] by simp,
          List.getElem?_append]
        have hlt : (front ++ [p]).length - 1 - m < (front ++ [p]).length := by
          simp only [List.length_append, List.length_cons, List.length_nil]
          omega
        rw [if_pos hlt]
        exact hidx''
      · rw [hlen'', hlen']

theorem rollbackLoop_add (m₁ m₂ : Nat) : ∀ (h : Heap) (t : Nat),
    VirtualChain.rollbackLoop (m₁ + m₂) h t = (VirtualChain.rollbackLoop m₁ h t).bind
      (fun s => VirtualChain.rollbackLoop m₂ s.1 s.2) := by
  induction m₁ with
  | zero =>
      intro h t
      simp [VirtualChain.rollbackLoop]
  | succ m ih =>
      intro h t
      rw [show m + 1 + m₂ = (m + m₂) + 1 by omega]
      rcases hrt : ChainBlock.rollback_tip h t with _ | ⟨h', t'⟩
      · simp [VirtualChain.rollbackLoop, hrt]
      · simp only [VirtualChain.rollbackLoop, hrt]
        exact ih h' t'

theorem rollbackLoop_none {c : VirtualChain} {ids : List Nat} (hch : IsChain c ids)
    (m : Nat) (hm : ids.length ≤ m) :
    VirtualChain.rollbackLoop m c.heap c.tip = none := by
  have hlen : 0 < ids.length := List.length_pos.mpr hch.ne_nil
  obtain ⟨h', t', hloop, hch', hck', hidx, hlen'⟩ :=
    rollbackLoop_spec (ids.length - 1) hch (by omega)
  have hsing : ids.take (ids.length - (ids.length - 1)) = ids.take 1 := by
    congr 1
    omega
  rw [hsing] at hch'
  -- after length - 1 steps the walk is at the root
  have ht' : t' = c.root := by
    rcases ids with _ | ⟨a, l⟩
    · simp at hlen
    · have h1 := hch'.head_eq
      have h2 := hch'.last_eq
      simp only [List.take_succ_cons, List.take_zero] at h1 h2
      simp only [List.head?_cons] at h1
      simp only [List.getLast?_singleton] at h2
      injection h1 with h1
      injection h2 with h2
      rw [← h2, ← h1]
  have hprev : prevOf h' t' = some none := by
    rw [ht']
    exact hch'.root_prev
  obtain ⟨bd, hbd, hbdp⟩ := prevOf_some_blockAt hprev
  have hbd' : h'[t']? = some bd := hbd
  have hrt : ChainBlock.rollback_tip h' t' = none := by
    simp [ChainBlock.rollback_tip, hbd', hbdp]
  rw [show m = (ids.length - 1) + (m - (ids.length - 1)) by omega,
    rollbackLoop_add, hloop]
  rw [show m - (ids.length - 1) = (m - ids.length) + 1 by omega]
  simp [VirtualChain.rollbackLoop, hrt]

theorem rollback_ok_spec {c : VirtualChain} {ids : List Nat} (hch : IsChain c ids)
    (m : Nat) (hm : m + 1 ≤ ids.length) :
    ∃ h' t' tcp cp,
      ckOf c.heap c.tip = some tcp ∧
      VirtualChain.rollbackLoop m c.heap c.tip = some (h', t') ∧
      ckOf c.heap t' = some cp ∧
      c.rollback m = some (.ok (cp, tcp.metadata.blue_score - cp.metadata.blue_score),
        ⟨h', c.root, t'⟩) ∧
      IsChain ⟨h', c.root, t'⟩ (ids.take (ids.length - m)) ∧
      ids[ids.length - 1 - m]? = some t' ∧
      cp.index = tcp.index - m := by
  obtain ⟨r, hr⟩ := hch.root_idx
  obtain ⟨k, hk, hrk, hlen⟩ := hch.len_eq hr
  obtain ⟨h', t', hloop, hch', hck', hidx, hlen'⟩ := rollbackLoop_spec m hch hm
  obtain ⟨td, htd, -⟩ := hch.tip_block
  obtain ⟨rd, hrd, -⟩ := hch.root_block
  have htc : ckOf c.heap c.tip = some td.checkpoint := by
    unfold ckOf; rw [htd]; rfl
  have hrc : ckOf c.heap c.root = some rd.checkpoint := by
    unfold ckOf; rw [hrd]; rfl
  have hkeq : td.checkpoint.index = k := by
    have : idxOf c.heap c.tip = some td.checkpoint.index := by
      unfold idxOf; rw [htc]; rfl
    rw [hk] at this
    injection this with h
    exact h.symm
  have hreq : rd.checkpoint.index = r := by
    have : idxOf c.heap c.root = some rd.checkpoint.index := by
      unfold idxOf; rw [hrc]; rfl
    rw [hr] at this
    injection this with h
    exact h.symm
  -- the new tip has a checkpoint
  obtain ⟨td', htd', -⟩ := hch'.tip_block
  have ht'c0 : ckOf h' t' = some td'.checkpoint := by
    unfold ckOf; rw [htd']; rfl
  have ht'c : ckOf c.heap t' = some td'.checkpoint := by
    rw [← hck' t']; exact ht'c0
  -- its index
  have hidxt' : idxOf c.heap t' = some (r + (ids.length - 1 - m)) :=
    hch.idx_at hr (ids.length - 1 - m) t' hidx
  have hcpidx : td'.checkpoint.index = td.checkpoint.index - m := by
    have : idxOf c.heap t' = some td'.checkpoint.index := by
      unfold idxOf; rw [ht'c]; rfl
    rw [hidxt'] at this
    injection this with h
    rw [hkeq]
    omega
  -- the guard does not fire
  have hguard : ¬ (td.checkpoint.index - m < rd.checkpoint.index) := by
    rw [hkeq, hreq]
    omega
  refine ⟨h', t', td.checkpoint, td'.checkpoint, htc, hloop, ht'c, ?_, hch', hidx, hcpidx⟩
  simp only [VirtualChain.rollback, htc, hrc]
  rw [if_neg hguard]
  simp only [hloop, ht'c0]

theorem rollback_pres_of_ok {c c' : VirtualChain} {ids : List Nat} {n : Nat}
    {res : Checkpoint × Nat} (hch : IsChain c ids)
    (hrb : c.rollback n = some (.ok res, c')) : ∃ ids', IsChain c' ids' := by
  by_cases hn : n + 1 ≤ ids.length
  · obtain ⟨h', t', tcp, cp, htc, hloop, ht'c, heq, hch', -, -⟩ := rollback_ok_spec hch n hn
    rw [heq] at hrb
    simp only [Option.some.injEq, Prod.mk.injEq] at hrb
    exact ⟨ids.take (ids.length - n), hrb.2 ▸ hch'⟩
  · -- the loop would fail, so rollback cannot return ok
    exfalso
    obtain ⟨td, htd, -⟩ := hch.tip_block
    obtain ⟨rd, hrd, -⟩ := hch.root_block
    have htc : ckOf c.heap c.tip = some td.checkpoint := by
      unfold ckOf; rw [htd]; rfl
    have hrc : ckOf c.heap c.root = some rd.checkpoint := by
      unfold ckOf; rw [hrd]; rfl
    have hnone := rollbackLoop_none hch n (by omega)
    simp only [VirtualChain.rollback, htc, hrc, hnone] at hrb
    split at hrb
    · simp at hrb
    · simp at hrb

/-! ## Preservation of the invariant by advance_root -/

theorem advance_root_step {h : Heap} {b tip n : Nat} {rest : List Nat}
    (hch : IsChain ⟨h, b, tip⟩ (b :: n :: rest)) :
    ChainBlock.advance_root h b = some (setPrev (setNext h b none) n none, some n) ∧
    IsChain ⟨setPrev (setNext h b none) n none, n, tip⟩ (n :: rest) ∧
    (∀ j, ckOf (setPrev (setNext h b none) n none) j = ckOf h j) ∧
    (∃ bd, blockAt h b = some bd ∧
      blockAt (setPrev (setNext h b none) n none) b = some ⟨bd.checkpoint, none, none⟩) ∧
    (∀ x, x ≠ b → x ≠ n → blockAt (setPrev (setNext h b none) n none) x = blockAt h x) ∧
    (setPrev (setNext h b none) n none).length = h.length := by
  have hbn := (List.chain'_cons.mp hch.chain).1
  obtain ⟨hbnn, hbnp, -⟩ := hbn
  obtain ⟨bd, hbd, hbdn⟩ := nextOf_some_blockAt hbnn
  obtain ⟨nd, hnd, -⟩ := prevOf_some_blockAt hbnp
  have hbd' : h[b]? = some bd := hbd
  have hbprev : bd.prev = none := by
    have hrp := hch.root_prev
    unfold prevOf at hrp
    rw [show (VirtualChain.mk h b tip).root = b from rfl,
      show (VirtualChain.mk h b tip).heap = h from rfl, hbd] at hrp
    injection hrp
  have hbnotin : b ∉ n :: rest := (List.nodup_cons.mp hch.nodup).1
  have hb_ne_n : b ≠ n := fun he => hbnotin (he ▸ List.mem_cons_self n rest)
  -- pointwise facts about the updated heap
  have hck' : ∀ j, ckOf (setPrev (setNext h b none) n none) j = ckOf h j := by
    intro j
    rw [ckOf_setPrev, ckOf_setNext]
  have hlen' : (setPrev (setNext h b none) n none).length = h.length := by
    rw [length_setPrev, length_setNext]
  have hprev_ne : ∀ j, j ≠ n → prevOf (setPrev (setNext h b none) n none) j = prevOf h j := by
    intro j hj
    rw [prevOf_setPrev_ne _ _ _ _ hj, prevOf_setNext]
  have hprevn : prevOf (setPrev (setNext h b none) n none) n = some none := by
    rw [prevOf_setPrev_self, blockAt_setNext_ne _ _ _ _ (fun he => hb_ne_n he.symm), hnd]
    rfl
  have hnext_ne : ∀ j, j ≠ b → nextOf (setPrev (setNext h b none) n none) j = nextOf h j := by
    intro j hj
    rw [nextOf_setPrev, nextOf_setNext_ne _ _ _ _ hj]
  have hframe : ∀ x, x ≠ b → x ≠ n →
      blockAt (setPrev (setNext h b none) n none) x = blockAt h x := by
    intro x hxb hxn
    rw [blockAt_setPrev_ne _ _ _ _ hxn, blockAt_setNext_ne _ _ _ _ hxb]
  refine ⟨?_, ?_, hck', ⟨bd, hbd, ?_⟩, hframe, hlen'⟩
  · simp [ChainBlock.advance_root, hbd', hbdn]
  · refine ⟨rfl, ?_, ?_, hprevn, ?_, hch.nodup.of_cons, ?_⟩
    · -- last
      have := hch.last_eq
      rw [List.getLast?_cons_cons] at this
      exact this
    · -- chain
      refine chain'_congr_mem (List.chain'_cons.mp hch.chain).2 ?_
      intro x y hx hy hR
      obtain ⟨hR1, hR2, hR3⟩ := hR
      have hxb : x ≠ b := fun he => hbnotin (he ▸ hx)
      have hyn : y ≠ n := by
        intro he
        rw [he, hbnp] at hR2
        injection hR2 with hR2
        injection hR2 with hR2
        exact hbnotin (hR2 ▸ hx)
      exact ⟨by rw [hnext_ne x hxb]; exact hR1, by rw [hprev_ne y hyn]; exact hR2,
        by unfold idxOf; rw [hck' x, hck' y]; exact hR3⟩
    · -- tip_next
      have htipmem : tip ∈ n :: rest := by
        have := hch.last_eq
        rw [List.getLast?_cons_cons] at this
        exact List.mem_of_getLast?_eq_some this
      have htipb : tip ≠ b := fun he => hbnotin (he ▸ htipmem)
      show nextOf _ tip = some none
      rw [hnext_ne tip htipb]
      exact hch.tip_next
    · -- bounds
      intro i hi
      show i < (setPrev (setNext h b none) n none).length
      rw [hlen']
      exact hch.bounds i (List.mem_cons_of_mem b hi)
  · -- the detached block is fully cleared
    rw [blockAt_setPrev_ne _ _ _ _ hb_ne_n, blockAt_setNext_self, hbd]
    rcases bd with ⟨ck, pv, nx⟩
    simp only [Option.map_some]
    cases hbprev
    rfl

theorem walk_miss {hsh root₀ : Nat} :
    ∀ (rest : List Nat) (h : Heap) (b tip fuel : Nat),
    IsChain ⟨h, b, tip⟩ (b :: rest) →
    rest.length < fuel →
    (∀ x ∈ b :: rest, hashOf h x ≠ some hsh) →
    ∃ h₂, VirtualChain.advanceRootWalk hsh root₀ tip fuel h (some b) =
        some (.error (.HashNotFound hsh), ⟨h₂, root₀, tip⟩) ∧
      (∀ j, ckOf h₂ j = ckOf h j) ∧
      (∀ x ∈ b :: rest, prevOf h₂ x = some none ∧ nextOf h₂ x = some none) ∧
      (∀ x, x ∉ b :: rest → blockAt h₂ x = blockAt h x) ∧
      h₂.length = h.length := by
  intro rest
  induction rest with
  | nil =>
      intro h b tip fuel hch hfuel hmiss
      obtain ⟨f, rfl⟩ : ∃ f, fuel = f + 1 := ⟨fuel - 1, by omega⟩
      have htip : b = tip := by
        have := hch.last_eq
        simpa using this
      subst htip
      obtain ⟨bd, hbd, hbdp⟩ := hch.root_block
      have hbd' : h[b]? = some bd := hbd
      have hbdn : bd.next = none := by
        have htn := hch.tip_next
        unfold nextOf at htn
        rw [show (VirtualChain.mk h b b).tip = b from rfl,
          show (VirtualChain.mk h b b).heap = h from rfl, hbd] at htn
        injection htn
      have hckb : ckOf h b = some bd.checkpoint := by
        unfold ckOf; rw [hbd]; rfl
      have hhash : ¬ (bd.checkpoint.metadata.hash = hsh) := by
        have := hmiss b (by simp)
        unfold hashOf at this
        rw [hckb] at this
        simpa using this
      refine ⟨setNext h b none, ?_, ?_, ?_, ?_, length_setNext h b none⟩
      · have hstep : ChainBlock.advance_root h b = some (setNext h b none, none) := by
          simp [ChainBlock.advance_root, hbd', hbdn]
        simp only [VirtualChain.advanceRootWalk, hckb]
        rw [if_neg hhash]
        simp only [hstep, VirtualChain.advanceRootWalk]
      · exact ckOf_setNext h b none
      · intro x hx
        simp only [List.mem_singleton] at hx
        subst hx
        constructor
        · rw [prevOf_setNext]
          have hrp := hch.root_prev
          simpa using hrp
        · rw [nextOf_setNext_self, hbd]
          rfl
      · intro x hx
        simp only [List.mem_singleton] at hx
        exact blockAt_setNext_ne h b none x hx
  | cons n rest' ih =>
      intro h b tip fuel hch hfuel hmiss
      obtain ⟨f, rfl⟩ : ∃ f, fuel = f + 1 := ⟨fuel - 1, by omega⟩
      obtain ⟨hstep, hch', hck', hbblock, hframe, hlen'⟩ := advance_root_step hch
      obtain ⟨bd, hbd, hbd₁⟩ := hbblock
      have hckb : ckOf h b = some bd.checkpoint := by
        unfold ckOf; rw [hbd]; rfl
      have hhash : ¬ (bd.checkpoint.metadata.hash = hsh) := by
        have := hmiss b (by simp)
        unfold hashOf at this
        rw [hckb] at this
        simpa using this
      have hbnotin : b ∉ n :: rest' := (List.nodup_cons.mp hch.nodup).1
      have hmiss' : ∀ x ∈ n :: rest',
          hashOf (setPrev (setNext h b none) n none) x ≠ some hsh := by
        intro x hx
        unfold hashOf
        rw [hck' x]
        exact hmiss x (List.mem_cons_of_mem b hx)
      obtain ⟨h₂, hwalk, hck₂, hclear₂, hframe₂, hlen₂⟩ :=
        ih (setPrev (setNext h b none) n none) n tip f hch'
          (by simp only [List.length_cons] at hfuel ⊢; omega) hmiss'
      refine ⟨h₂, ?_, ?_, ?_, ?_, ?_⟩
      · simp only [VirtualChain.advanceRootWalk, hckb]
        rw [if_neg hhash]
        simp only [hstep]
        exact hwalk
      · intro j
        rw [hck₂ j, hck' j]
      · intro x hx
        rcases List.mem_cons.mp hx with rfl | hx
        · have hb₂ : blockAt h₂ x = some ⟨bd.checkpoint, none, none⟩ := by
            rw [hframe₂ x hbnotin]
            exact hbd₁
          constructor
          · unfold prevOf; rw [hb₂]; rfl
          · unfold nextOf; rw [hb₂]; rfl
        · exact hclear₂ x hx
      · intro x hx
        have hxb : x ≠ b := by intro he; subst he; exact hx (by simp)
        have hxn : x ≠ n := by intro he; subst he; exact hx (by simp)
        have hxrest : x ∉ n :: rest' := fun hm => hx (List.mem_cons_of_mem b hm)
        rw [hframe₂ x hxrest, hframe x hxb hxn]
      · rw [hlen₂, hlen']

theorem walk_hit {hsh root₀ : Nat} :
    ∀ (rest : List Nat) (h : Heap) (b tip fuel j i : Nat),
    IsChain ⟨h, b, tip⟩ (b :: rest) →
    rest.length < fuel →
    (b :: rest)[j]? = some i →
    hashOf h i = some hsh →
    (∀ x ∈ (b :: rest).take j, hashOf h x ≠ some hsh) →
    ∃ h₂ cp, ckOf h i = some cp ∧
      VirtualChain.advanceRootWalk hsh root₀ tip fuel h (some b) =
        some (.ok (some cp), ⟨h₂, i, tip⟩) ∧
      IsChain ⟨h₂, i, tip⟩ ((b :: rest).drop j) ∧
      (∀ x, ckOf h₂ x = ckOf h x) ∧ h₂.length = h.length := by
  intro rest
  induction rest with
  | nil =>
      intro h b tip fuel j i hch hfuel hj hhash htake
      match j, hj with
      | 0, hj =>
          rw [List.getElem?_cons_zero] at hj
          injection hj with hj
          subst hj
          obtain ⟨f, rfl⟩ : ∃ f, fuel = f + 1 := ⟨fuel - 1, by omega⟩
          obtain ⟨bd, hbd0, -⟩ := hch.root_block
          have hbd : blockAt h b = some bd := hbd0
          have hcp : ckOf h b = some bd.checkpoint := by unfold ckOf; rw [hbd]; rfl
          have hcph : bd.checkpoint.metadata.hash = hsh := by
            unfold hashOf at hhash
            rw [hcp] at hhash
            injection hhash
          refine ⟨h, bd.checkpoint, hcp, ?_, hch, fun x => rfl, rfl⟩
          simp only [VirtualChain.advanceRootWalk, hcp]
          rw [if_pos hcph]
      | k + 1, hj =>
          rw [List.getElem?_cons_succ] at hj
          simp at hj
  | cons n rest' ih =>
      intro h b tip fuel j i hch hfuel hj hhash htake
      match j, hj, htake with
      | 0, hj, _ =>
          rw [List.getElem?_cons_zero] at hj
          injection hj with hj
          subst hj
          obtain ⟨f, rfl⟩ : ∃ f, fuel = f + 1 := ⟨fuel - 1, by omega⟩
          obtain ⟨bd, hbd0, -⟩ := hch.root_block
          have hbd : blockAt h b = some bd := hbd0
          have hcp : ckOf h b = some bd.checkpoint := by unfold ckOf; rw [hbd]; rfl
          have hcph : bd.checkpoint.metadata.hash = hsh := by
            unfold hashOf at hhash
            rw [hcp] at hhash
            injection hhash
          refine ⟨h, bd.checkpoint, hcp, ?_, hch, fun x => rfl, rfl⟩
          simp only [VirtualChain.advanceRootWalk, hcp]
          rw [if_pos hcph]
      | k + 1, hj, htake =>
          rw [List.getElem?_cons_succ] at hj
          obtain ⟨f, rfl⟩ : ∃ f, fuel = f + 1 := ⟨fuel - 1, by omega⟩
          obtain ⟨hstep, hch', hck', hbblock, hframe, hlen'⟩ := advance_root_step hch
          obtain ⟨bd, hbd, hbd₁⟩ := hbblock
          have hckb : ckOf h b = some bd.checkpoint := by
            unfold ckOf; rw [hbd]; rfl
          have hbmiss : hashOf h b ≠ some hsh := by
            refine htake b ?_
            rw [List.take_succ_cons]
            exact List.mem_cons_self b _
          have hhashb : ¬ (bd.checkpoint.metadata.hash = hsh) := by
            unfold hashOf at hbmiss
            rw [hckb] at hbmiss
            simpa using hbmiss
          have hhash₁ : hashOf (setPrev (setNext h b none) n none) i = some hsh := by
            unfold hashOf
            rw [hck' i]
            exact hhash
          have htake₁ : ∀ x ∈ (n :: rest').take k,
              hashOf (setPrev (setNext h b none) n none) x ≠ some hsh := by
            intro x hx
            unfold hashOf
            rw [hck' x]
            refine htake x ?_
            rw [List.take_succ_cons]
            exact List.mem_cons_of_mem b hx
          obtain ⟨h₂, cp, hcp₁, hwalk, hch₂, hck₂, hlen₂⟩ :=
            ih (setPrev (setNext h b none) n none) n tip f k i hch'
              (by simp only [List.length_cons] at hfuel ⊢; omega) hj hhash₁ htake₁
          have hcp : ckOf h i = some cp := by
            rw [← hck' i]
            exact hcp₁
          refine ⟨h₂, cp, hcp, ?_, ?_, ?_, ?_⟩
          · simp only [VirtualChain.advanceRootWalk, hckb]
            rw [if_neg hhashb]
            simp only [hstep]
            exact hwalk
          · rw [List.drop_succ_cons]
            exact hch₂
          · intro x
            rw [hck₂ x, hck' x]
          · rw [hlen₂, hlen']

theorem advance_root_miss_spec {c : VirtualChain} {ids : List Nat} (hch : IsChain c ids)
    {hsh : Nat} (hmiss : ∀ x ∈ ids, hashOf c.heap x ≠ some hsh) :
    ∃ h₂, c.advance_root hsh = some (.error (.HashNotFound hsh), ⟨h₂, c.root, c.tip⟩) ∧
      (∀ j, ckOf h₂ j = ckOf c.heap j) ∧
      (∀ x ∈ ids, prevOf h₂ x = some none ∧ nextOf h₂ x = some none) ∧
      h₂.length = c.heap.length := by
  obtain ⟨rd, hrd0, hrdp⟩ := hch.root_block
  have hrd : blockAt c.heap c.root = some rd := hrd0
  have hrc : ckOf c.heap c.root = some rd.checkpoint := by
    unfold ckOf; rw [hrd]; rfl
  have hrhash : ¬ (rd.checkpoint.metadata.hash = hsh) := by
    have := hmiss c.root hch.root_mem
    unfold hashOf at this
    rw [hrc] at this
    simpa using this
  have hlenle : ids.length ≤ c.heap.length := nodup_length_le hch.nodup hch.bounds
  -- expose the head of the chain
  rcases hids : ids with _ | ⟨a, rest⟩
  · exact absurd hids hch.ne_nil
  subst hids
  have ha : a = c.root := by
    have := hch.head_eq
    simp only [List.head?_cons] at this
    injection this
  subst ha
  rcases rest with _ | ⟨n, rest'⟩
  · -- singleton chain: the root is the tip, the walk starts and ends at none
    have htip : c.root = c.tip := by
      have := hch.last_eq
      simpa using this
    have hrdn : rd.next = none := by
      have htn := hch.tip_next
      unfold nextOf at htn
      rw [← htip, hrd] at htn
      injection htn
    have hstep : ChainBlock.advance_root c.heap c.root =
        some (setNext c.heap c.root none, none) := by
      have hrd' : c.heap[c.root]? = some rd := hrd
      simp [ChainBlock.advance_root, hrd', hrdn]
    refine ⟨setNext c.heap c.root none, ?_, ckOf_setNext c.heap c.root none, ?_, ?_⟩
    · simp only [VirtualChain.advance_root, hrc]
      rw [if_neg hrhash]
      simp only [hstep, VirtualChain.advanceRootWalk]
    · intro x hx
      simp only [List.mem_singleton] at hx
      subst hx
      constructor
      · rw [prevOf_setNext]
        exact hch.root_prev
      · rw [nextOf_setNext_self, hrd]
        rfl
    · exact length_setNext c.heap c.root none
  · -- at least two blocks: detach the root, then run the walk to exhaustion
    have hch0 : IsChain ⟨c.heap, c.root, c.tip⟩ (c.root :: n :: rest') := hch
    obtain ⟨hstep, hch', hck', hbblock, hframe, hlen'⟩ := advance_root_step hch0
    obtain ⟨bd, hbd, hbd₁⟩ := hbblock
    have hbdrd : bd = rd := by
      rw [hrd] at hbd
      injection hbd with h
      exact h.symm
    subst hbdrd
    have hrnotin : c.root ∉ n :: rest' := (List.nodup_cons.mp hch.nodup).1
    have hmiss' : ∀ x ∈ n :: rest',
        hashOf (setPrev (setNext c.heap c.root none) n none) x ≠ some hsh := by
      intro x hx
      unfold hashOf
      rw [hck' x]
      exact hmiss x (List.mem_cons_of_mem c.root hx)
    obtain ⟨h₂, hwalk, hck₂, hclear₂, hframe₂, hlen₂⟩ :=
      walk_miss rest' (setPrev (setNext c.heap c.root none) n none) n c.tip
        c.heap.length hch'
        (by simp only [List.length_cons] at hlenle ⊢; omega) hmiss'
    refine ⟨h₂, ?_, ?_, ?_, ?_⟩
    · simp only [VirtualChain.advance_root, hrc]
      rw [if_neg hrhash]
      simp only [hstep]
      exact hwalk
    · intro j
      rw [hck₂ j, hck' j]
    · intro x hx
      rcases List.mem_cons.mp hx with rfl | hx
      · have hb₂ : blockAt h₂ c.root = some ⟨bd.checkpoint, none, none⟩ := by
          rw [hframe₂ c.root hrnotin]
          exact hbd₁
        constructor
        · unfold prevOf; rw [hb₂]; rfl
        · unfold nextOf; rw [hb₂]; rfl
      · exact hclear₂ x hx
    · rw [hlen₂, hlen']

theorem advance_root_hit_spec {c : VirtualChain} {ids : List Nat} (hch : IsChain c ids)
    {hsh : Nat} {j b : Nat} (hj : ids[j]? = some b) (hj1 : 1 ≤ j)
    (hbh : hashOf c.heap b = some hsh)
    (hfirst : ∀ x ∈ ids.take j, hashOf c.heap x ≠ some hsh) :
    ∃ h₂ cp, ckOf c.heap b = some cp ∧
      c.advance_root hsh = some (.ok (some cp), ⟨h₂, b, c.tip⟩) ∧
      IsChain ⟨h₂, b, c.tip⟩ (ids.drop j) ∧
      (∀ x, ckOf h₂ x = ckOf c.heap x) ∧ h₂.length = c.heap.length := by
  obtain ⟨rd, hrd0, hrdp⟩ := hch.root_block
  have hrd : blockAt c.heap c.root = some rd := hrd0
  have hrc : ckOf c.heap c.root = some rd.checkpoint := by
    unfold ckOf; rw [hrd]; rfl
  have hlenle : ids.length ≤ c.heap.length := nodup_length_le hch.nodup hch.bounds
  obtain ⟨j', rfl⟩ : ∃ j', j = j' + 1 := ⟨j - 1, by omega⟩
  rcases hids : ids with _ | ⟨a, rest⟩
  · exact absurd hids hch.ne_nil
  subst hids
  have ha : a = c.root := by
    have := hch.head_eq
    simp only [List.head?_cons] at this
    injection this
  subst ha
  rw [List.getElem?_cons_succ] at hj
  rcases rest with _ | ⟨n, rest'⟩
  · simp at hj
  have hrmem : c.root ∈ (c.root :: n :: rest').take (j' + 1) := by
    rw [List.take_succ_cons]
    exact List.mem_cons_self c.root _
  have hrhash : ¬ (rd.checkpoint.metadata.hash = hsh) := by
    have := hfirst c.root hrmem
    unfold hashOf at this
    rw [hrc] at this
    simpa using this
  have hch0 : IsChain ⟨c.heap, c.root, c.tip⟩ (c.root :: n :: rest') := hch
  obtain ⟨hstep, hch', hck', hbblock, hframe, hlen'⟩ := advance_root_step hch0
  have hhash₁ : hashOf (setPrev (setNext c.heap c.root none) n none) b = some hsh := by
    unfold hashOf
    rw [hck' b]
    exact hbh
  have htake₁ : ∀ x ∈ (n :: rest').take j',
      hashOf (setPrev (setNext c.heap c.root none) n none) x ≠ some hsh := by
    intro x hx
    unfold hashOf
    rw [hck' x]
    refine hfirst x ?_
    rw [List.take_succ_cons]
    exact List.mem_cons_of_mem c.root hx
  obtain ⟨h₂, cp, hcp₁, hwalk, hch₂, hck₂, hlen₂⟩ :=
    walk_hit (rest') (setPrev (setNext c.heap c.root none) n none) n c.tip
      c.heap.length j' b hch'
      (by simp only [List.length_cons] at hlenle ⊢; omega) hj hhash₁ htake₁
  have hcp : ckOf c.heap b = some cp := by
    rw [← hck' b]
    exact hcp₁
  refine ⟨h₂, cp, hcp, ?_, ?_, ?_, ?_⟩
  · simp only [VirtualChain.advance_root, hrc]
    rw [if_neg hrhash]
    simp only [hstep]
    exact hwalk
  · rw [List.drop_succ_cons]
    exact hch₂
  · intro x
    rw [hck₂ x, hck' x]
  · rw [hlen₂, hlen']

/-! ## The invariant holds in every reachable state -/

theorem isChain_new (cp : Checkpoint) : IsChain (VirtualChain.new cp) [0] := by
  refine ⟨rfl, rfl, List.chain'_singleton 0, rfl, rfl, List.nodup_singleton 0, ?_⟩
  intro i hi
  simp only [List.mem_singleton] at hi
  subst hi
  simp [VirtualChain.new]

theorem IsChain.next_walk {c : VirtualChain} {ids : List Nat} (hch : IsChain c ids) :
    nextWalk c.heap c.root (ids.length - 1) = some c.tip := by
  refine chain_nextWalk hch.chain (ids.length - 1) 0 c.root c.tip hch.root_at_zero ?_
  rw [Nat.zero_add]
  exact hch.tip_at_last

theorem IsChain.prev_walk {c : VirtualChain} {ids : List Nat} (hch : IsChain c ids) :
    prevWalk c.heap c.tip (ids.length - 1) = some c.root := by
  refine chain_prevWalk hch.chain (ids.length - 1) 0 c.root c.tip hch.root_at_zero ?_
  rw [Nat.zero_add]
  exact hch.tip_at_last

theorem advanceTipSeq_pres : ∀ (ms : List ChainBlockMetadata) {c : VirtualChain}
    {ids : List Nat}, IsChain c ids →
    ∃ c' ids', advanceTipSeq c ms = some c' ∧ IsChain c' ids' ∧
      c'.root = c.root ∧ ids'.length = ids.length + ms.length ∧
      idxOf c'.heap c'.root = idxOf c.heap c.root := by
  intro ms
  induction ms with
  | nil =>
      intro c ids hch
      exact ⟨c, ids, rfl, hch, rfl, by simp, rfl⟩
  | cons m ms ih =>
      intro c ids hch
      obtain ⟨c₂, cp₂, heq, hch₂, hroot₂, htip₂, hlen₂, hck₂, hidx₂⟩ := advance_tip_pres hch m
      obtain ⟨c', ids', heq', hch', hroot', hlen', hidx'⟩ := ih hch₂
      refine ⟨c', ids', ?_, hch', by rw [hroot', hroot₂], ?_, ?_⟩
      · simp only [advanceTipSeq, heq]
        exact heq'
      · rw [hlen']
        simp only [List.length_append, List.length_cons, List.length_nil]
        omega
      · rw [hidx', hroot₂]
        unfold idxOf
        rw [hck₂ c.root (hch.bounds c.root hch.root_mem)]

theorem mem_take_position {l : List Nat} {n : Nat} {x : Nat}
    (hx : x ∈ l.take n) : ∃ k, k < n ∧ l[k]? = some x := by
  obtain ⟨k, hk⟩ := List.mem_iff_getElem?.mp hx
  have hlt : k < (l.take n).length := (List.getElem?_eq_some_iff.mp hk).1
  have hkn : k < n := lt_of_lt_of_le hlt (by
    rw [List.length_take]
    exact Nat.min_le_left n l.length)
  refine ⟨k, hkn, ?_⟩
  rw [List.getElem?_take] at hk
  rw [if_pos hkn] at hk
  exact hk

theorem advance_root_pres_of_ok {c c' : VirtualChain} {ids : List Nat} {hsh : Nat}
    {res : Option Checkpoint} (hch : IsChain c ids)
    (hstep : c.advance_root hsh = some (.ok res, c')) : ∃ ids', IsChain c' ids' := by
  classical
  obtain ⟨rd, hrd0, -⟩ := hch.root_block
  have hrd : blockAt c.heap c.root = some rd := hrd0
  have hrc : ckOf c.heap c.root = some rd.checkpoint := by
    unfold ckOf; rw [hrd]; rfl
  by_cases hroot : rd.checkpoint.metadata.hash = hsh
  · have hnoop : c.advance_root hsh = some (.ok none, c) := by
      simp only [VirtualChain.advance_root, hrc]
      rw [if_pos hroot]
    rw [hnoop] at hstep
    simp only [Option.some.injEq, Prod.mk.injEq] at hstep
    exact ⟨ids, hstep.2 ▸ hch⟩
  · by_cases hex : ∃ k : Nat, ∃ x : Nat, ids[k]? = some x ∧ hashOf c.heap x = some hsh
    · obtain ⟨x₀, hx₀, hhx₀⟩ := Nat.find_spec hex
      have hj1 : 1 ≤ Nat.find hex := by
        rcases Nat.eq_zero_or_pos (Nat.find hex) with h0 | h1
        · exfalso
          rw [h0, hch.root_at_zero] at hx₀
          injection hx₀ with hx₀
          subst hx₀
          unfold hashOf at hhx₀
          rw [hrc] at hhx₀
          injection hhx₀ with hhx₀
          exact hroot hhx₀
        · exact h1
      have hfirst : ∀ x ∈ ids.take (Nat.find hex), hashOf c.heap x ≠ some hsh := by
        intro x hx hhash
        obtain ⟨k', hk'lt, hk'⟩ := mem_take_position hx
        exact Nat.find_min hex hk'lt ⟨x, hk', hhash⟩
      obtain ⟨h₂, cp, hcp, heq, hch₂, -, -⟩ := advance_root_hit_spec hch hx₀ hj1 hhx₀ hfirst
      rw [heq] at hstep
      simp only [Option.some.injEq, Prod.mk.injEq] at hstep
      exact ⟨ids.drop (Nat.find hex), hstep.2 ▸ hch₂⟩
    · exfalso
      have hmiss : ∀ x ∈ ids, hashOf c.heap x ≠ some hsh := by
        intro x hx hhash
        obtain ⟨k, hk⟩ := List.mem_iff_getElem?.mp hx
        exact hex ⟨k, x, hk, hhash⟩
      obtain ⟨h₂, heq, -, -, -⟩ := advance_root_miss_spec hch hmiss
      rw [heq] at hstep
      simp at hstep

theorem reachable_isChain {c : VirtualChain} (hc : Reachable c) :
    ∃ ids, IsChain c ids := by
  induction hc with
  | base cp => exact ⟨[0], isChain_new cp⟩
  | tip_step hc hstep ih =>
      obtain ⟨ids, hch⟩ := ih
      obtain ⟨c₂, cp₂, heq, hch₂, -⟩ := advance_tip_pres hch _
      rw [heq] at hstep
      simp only [Option.some.injEq, Prod.mk.injEq] at hstep
      exact ⟨_, hstep.1 ▸ hch₂⟩
  | rollback_step hc hstep ih =>
      obtain ⟨ids, hch⟩ := ih
      exact rollback_pres_of_ok hch hstep
  | root_step hc hstep ih =>
      obtain ⟨ids, hch⟩ := ih
      exact advance_root_pres_of_ok hch hstep

/-! ## Concrete fixtures for witnesses -/

/-- A two-block chain (root at index 5, hash 100, blue score 50; tip at
index 6, hash 101, blue score 60), as produced by
`new ⟨5, ⟨100, 50⟩⟩` followed by `advance_tip ⟨101, 60⟩`. -/
def chainW : VirtualChain :=
  ⟨[⟨⟨5, ⟨100, 50⟩⟩, none, some 1⟩, ⟨⟨6, ⟨101, 60⟩⟩, some 0, none⟩], 0, 1⟩

theorem isChain_chainW : IsChain chainW [0, 1] := by
  refine ⟨by decide, by decide, ?_, by decide, by decide, by decide, by decide⟩
  simp only [List.chain'_cons, List.chain'_singleton, and_true]
  decide

/-! ## The claims -/

/-- C1: the claim says the defensive failure in `ChainBlock::rollback_tip`
(rolling back a block with no predecessor) is never reachable through
`VirtualChain`'s public operations whenever the root-boundary guard passes.
The code violates this: on the reachable state `new ⟨0, _⟩` (root index 0),
`rollback 1` computes `target_index = 0.saturating_sub(1) = 0`, the guard
`0 < 0` does not fire, and the single `rollback_tip` step is applied to the
root block, whose `prev` link is empty — the defensive failure (modelled as
`none`) is reached. -/
theorem c1_rollback_defensive_failure_reached :
    Reachable (VirtualChain.new ⟨0, ⟨0, 0⟩⟩) ∧
    ¬ ((0 : Nat) - 1 < 0) ∧
    (VirtualChain.new ⟨0, ⟨0, 0⟩⟩).rollback 1 = none :=
  ⟨Reachable.base ⟨0, ⟨0, 0⟩⟩, by decide, rfl⟩

/-- C2 counterexample: for the VirtualChain `new ⟨0, ⟨7, 3⟩⟩` (root.index =
r = 0, tip.index = k = 0), the claim says `rollback (k - r + 1) = rollback 1`
returns the `RollbackPastRoot` error; instead the code reaches the defensive
failure in `rollback_tip` (modelled as `none`) — no error value is returned
at all, for any fields. -/
theorem c2_counterexample :
    (VirtualChain.new ⟨0, ⟨7, 3⟩⟩).rollback (0 - 0 + 1) = none := rfl

/-- C2 (amended: the statement holds for every chain whose root index is at
least 1): for every VirtualChain satisfying the linearity invariant with
root.index = r ≥ 1 and tip.index = k, `rollback (k - r + 1)` returns the
error `RollbackPastRoot` with `target_index = r - 1` and `root_index = r`,
leaving the chain unmodified. -/
theorem c2_rollback_past_root {c : VirtualChain} {ids : List Nat} {r k : Nat}
    (hch : IsChain c ids) (hr : idxOf c.heap c.root = some r)
    (hk : idxOf c.heap c.tip = some k) (h1 : 1 ≤ r) :
    c.rollback (k - r + 1) = some (.error (.RollbackPastRoot (r - 1) r), c) := by
  obtain ⟨k', hk', hrk', hlen⟩ := hch.len_eq hr
  have hkk : k = k' := by
    rw [hk] at hk'
    injection hk'
  subst hkk
  obtain ⟨rd, hrd0, -⟩ := hch.root_block
  obtain ⟨td, htd0, -⟩ := hch.tip_block
  have hrd : blockAt c.heap c.root = some rd := hrd0
  have htd : blockAt c.heap c.tip = some td := htd0
  have hrc : ckOf c.heap c.root = some rd.checkpoint := by
    unfold ckOf; rw [hrd]; rfl
  have htc : ckOf c.heap c.tip = some td.checkpoint := by
    unfold ckOf; rw [htd]; rfl
  have hre : rd.checkpoint.index = r := by
    have : idxOf c.heap c.root = some rd.checkpoint.index := by
      unfold idxOf; rw [hrc]; rfl
    rw [hr] at this
    injection this with h
    exact h.symm
  have hte : td.checkpoint.index = k := by
    have : idxOf c.heap c.tip = some td.checkpoint.index := by
      unfold idxOf; rw [htc]; rfl
    rw [hk] at this
    injection this with h
    exact h.symm
  simp only [VirtualChain.rollback, htc, hrc]
  rw [hre, hte]
  rw [if_pos (by omega)]
  have harith : k - (k - r + 1) = r - 1 := by omega
  rw [harith]

/-- C2 witness: on the concrete two-block chain with root index 5 and tip
index 6, `rollback (6 - 5 + 1)` returns `RollbackPastRoot 4 5` and the
unchanged chain. -/
theorem c2_rollback_past_root_w :
    chainW.rollback (6 - 5 + 1) =
      some (.error (.RollbackPastRoot (5 - 1) 5), chainW) :=
  c2_rollback_past_root isChain_chainW (by decide) (by decide) (by decide)

/-- C3: whenever `rollback` returns an error (the only error it produces is
`RollbackPastRoot`), the chain value handed back is exactly the original:
root, tip and every link are untouched, because the guard fires before any
mutation. -/
theorem c3_rollback_error_unmodified (c : VirtualChain) (n : Nat) (e : Error)
    (c' : VirtualChain) (h : c.rollback n = some (.error e, c')) : c' = c := by
  unfold VirtualChain.rollback at h
  rcases htc : ckOf c.heap c.tip with _ | tcp <;> rw [htc] at h
  · rcases hrc : ckOf c.heap c.root with _ | rcp <;> rw [hrc] at h <;> cases h
  · rcases hrc : ckOf c.heap c.root with _ | rcp <;> rw [hrc] at h
    · cases h
    · simp only at h
      split at h
      · simp only [Option.some.injEq, Prod.mk.injEq] at h
        exact h.2.symm
      · rcases hrl : VirtualChain.rollbackLoop n c.heap c.tip with _ | ⟨h₂, t₂⟩ <;>
          simp only [hrl] at h
        · cases h
        · rcases hc2 : ckOf h₂ t₂ with _ | cp <;> simp only [hc2] at h
          · cases h
          · simp at h

/-- C3 witness: the error case of `rollback` on the concrete two-block chain
returns the chain unchanged. -/
theorem c3_rollback_error_unmodified_w :
    chainW.rollback 2 = some (.error (.RollbackPastRoot 4 5), chainW) ∧
      chainW = chainW :=
  ⟨rfl, c3_rollback_error_unmodified chainW 2 (.RollbackPastRoot 4 5) chainW rfl⟩

/-- C4: for every VirtualChain satisfying the linearity invariant, with root
checkpoint `rcp` and tip checkpoint `tcp`, and every `m ≤ tcp.index -
rcp.index`, `rollback m` succeeds; the returned checkpoint is the checkpoint
of the chain block at position `length - 1 - m` (whose index is
`tcp.index - m`, i.e. k - m), and the returned depth is
`tcp.blue_score - new_tip.blue_score` saturated at 0 (`Nat` subtraction). -/
theorem c4_rollback_ok_checkpoint_depth {c : VirtualChain} {ids : List Nat}
    (m : Nat) {rcp tcp : Checkpoint} (hch : IsChain c ids)
    (hr : ckOf c.heap c.root = some rcp) (ht : ckOf c.heap c.tip = some tcp)
    (hm : m ≤ tcp.index - rcp.index) :
    ∃ c' i bd, ids[ids.length - 1 - m]? = some i ∧ blockAt c.heap i = some bd ∧
      c.rollback m = some (.ok (bd.checkpoint,
        tcp.metadata.blue_score - bd.checkpoint.metadata.blue_score), c') ∧
      bd.checkpoint.index = tcp.index - m := by
  have hridx : idxOf c.heap c.root = some rcp.index := by
    unfold idxOf; rw [hr]; rfl
  have htidx : idxOf c.heap c.tip = some tcp.index := by
    unfold idxOf; rw [ht]; rfl
  obtain ⟨k, hk, hrk, hlen⟩ := hch.len_eq hridx
  have hkk : k = tcp.index := by
    rw [htidx] at hk
    injection hk with h
    exact h.symm
  subst hkk
  obtain ⟨h', t', tcp', cp, htc', hloop, ht'c, heq, hch', hidx, hcpidx⟩ :=
    rollback_ok_spec hch m (by omega)
  have htcp : tcp' = tcp := by
    rw [ht] at htc'
    injection htc' with h
    exact h.symm
  subst htcp
  obtain ⟨bd, hbd, hbdc⟩ := ckOf_some_blockAt ht'c
  refine ⟨⟨h', c.root, t'⟩, t', bd, hidx, hbd, ?_, ?_⟩
  · rw [hbdc]
    exact heq
  · rw [hbdc]
    exact hcpidx

/-- C4 witness: on the concrete two-block chain, `rollback 1` returns the
root block's checkpoint (index 5 = 6 - 1) with depth 60 - 50 = 10. -/
theorem c4_rollback_ok_checkpoint_depth_w :
    ∃ c' i bd, [0, 1][[0, 1].length - 1 - 1]? = some i ∧
      blockAt chainW.heap i = some bd ∧
      chainW.rollback 1 = some (.ok (bd.checkpoint,
        (60 : Nat) - bd.checkpoint.metadata.blue_score), c') ∧
      bd.checkpoint.index = 6 - 1 :=
  c4_rollback_ok_checkpoint_depth 1 isChain_chainW
    (rfl : ckOf chainW.heap chainW.root = some ⟨5, ⟨100, 50⟩⟩)
    (rfl : ckOf chainW.heap chainW.tip = some ⟨6, ⟨101, 60⟩⟩)
    (by decide)

/-- C5: every VirtualChain reachable from `new` by successful public
operations satisfies the linearity invariant: root.index ≤ tip.index,
following `next` from the root reaches the tip in exactly
`tip.index - root.index` steps, and following `prev` from the tip reaches
the root in the same number of steps. -/
theorem c5_reachable_linear_invariant {c : VirtualChain} (hc : Reachable c) :
    ∃ ids r k, IsChain c ids ∧ idxOf c.heap c.root = some r ∧
      idxOf c.heap c.tip = some k ∧ r ≤ k ∧
      nextWalk c.heap c.root (k - r) = some c.tip ∧
      prevWalk c.heap c.tip (k - r) = some c.root := by
  obtain ⟨ids, hch⟩ := reachable_isChain hc
  obtain ⟨r, hr⟩ := hch.root_idx
  obtain ⟨k, hk, hrk, hlen⟩ := hch.len_eq hr
  refine ⟨ids, r, k, hch, hr, hk, hrk, ?_, ?_⟩
  · have := hch.next_walk
    rw [show ids.length - 1 = k - r by omega] at this
    exact this
  · have := hch.prev_walk
    rw [show ids.length - 1 = k - r by omega] at this
    exact this

/-- C5 witness: the invariant instantiated at the freshly created chain. -/
theorem c5_reachable_linear_invariant_w :
    ∃ ids r k, IsChain (VirtualChain.new ⟨3, ⟨9, 2⟩⟩) ids ∧
      idxOf (VirtualChain.new ⟨3, ⟨9, 2⟩⟩).heap (VirtualChain.new ⟨3, ⟨9, 2⟩⟩).root = some r ∧
      idxOf (VirtualChain.new ⟨3, ⟨9, 2⟩⟩).heap (VirtualChain.new ⟨3, ⟨9, 2⟩⟩).tip = some k ∧
      r ≤ k ∧
      nextWalk (VirtualChain.new ⟨3, ⟨9, 2⟩⟩).heap (VirtualChain.new ⟨3, ⟨9, 2⟩⟩).root (k - r) =
        some (VirtualChain.new ⟨3, ⟨9, 2⟩⟩).tip ∧
      prevWalk (VirtualChain.new ⟨3, ⟨9, 2⟩⟩).heap (VirtualChain.new ⟨3, ⟨9, 2⟩⟩).tip (k - r) =
        some (VirtualChain.new ⟨3, ⟨9, 2⟩⟩).root :=
  c5_reachable_linear_invariant (Reachable.base ⟨3, ⟨9, 2⟩⟩)

/-- C6: after any sequence of `n` `advance_tip` calls on a fresh chain,
tip.index = root.index + n, walking `next` from the root `n` times reaches
the tip, and walking `prev` from the tip `n` times reaches the root. -/
theorem c6_advance_tip_sequence (cp : Checkpoint) (ms : List ChainBlockMetadata) :
    ∃ c', advanceTipSeq (VirtualChain.new cp) ms = some c' ∧
      idxOf c'.heap c'.root = some cp.index ∧
      idxOf c'.heap c'.tip = some (cp.index + ms.length) ∧
      nextWalk c'.heap c'.root ms.length = some c'.tip ∧
      prevWalk c'.heap c'.tip ms.length = some c'.root := by
  obtain ⟨c', ids', heq, hch', hroot', hlen', hidx'⟩ :=
    advanceTipSeq_pres ms (isChain_new cp)
  have hidx0 : idxOf (VirtualChain.new cp).heap (VirtualChain.new cp).root =
      some cp.index := rfl
  rw [hidx0] at hidx'
  obtain ⟨k, hk, hrk, hlen2⟩ := hch'.len_eq hidx'
  have hlen1 : ids'.length = 1 + ms.length := by
    rw [hlen']
    simp
  have hkval : k = cp.index + ms.length := by
    rw [hlen1] at hlen2
    omega
  subst hkval
  refine ⟨c', heq, hidx', hk, ?_, ?_⟩
  · have := hch'.next_walk
    rw [show ids'.length - 1 = ms.length by omega] at this
    exact this
  · have := hch'.prev_walk
    rw [show ids'.length - 1 = ms.length by omega] at this
    exact this

/-- C7: `advance_root` on the hash of a block strictly between root and tip
(inclusive of the tip; position j ≥ 1 in the chain, first occurrence of that
hash) succeeds with that block's checkpoint, makes that block the new root,
keeps the old tip, re-establishes the linearity invariant on the suffix, and
makes every block before the new root (old root included) unreachable from
the resulting chain by `next`/`prev` links. -/
theorem c7_advance_root_interior {c : VirtualChain} {ids : List Nat}
    {j b hsh : Nat} (hch : IsChain c ids) (hj : ids[j]? = some b) (hj1 : 1 ≤ j)
    (hbh : hashOf c.heap b = some hsh)
    (hfirst : ∀ x ∈ ids.take j, hashOf c.heap x ≠ some hsh) :
    ∃ h₂ cp, ckOf c.heap b = some cp ∧
      c.advance_root hsh = some (.ok (some cp), ⟨h₂, b, c.tip⟩) ∧
      IsChain ⟨h₂, b, c.tip⟩ (ids.drop j) ∧
      (∀ x ∈ ids.take j, ¬ Reaches h₂ b x ∧ ¬ Reaches h₂ c.tip x) := by
  obtain ⟨h₂, cp, hcp, heq, hch₂, hckp, hlenp⟩ := advance_root_hit_spec hch hj hj1 hbh hfirst
  refine ⟨h₂, cp, hcp, heq, hch₂, ?_⟩
  intro x hx
  have hdisj : List.Disjoint (ids.take j) (ids.drop j) :=
    List.disjoint_take_drop hch.nodup (Nat.le_refl j)
  have hbmem : b ∈ ids.drop j := hch₂.root_mem
  have htipmem : c.tip ∈ ids.drop j := hch₂.tip_mem
  constructor
  · intro hre
    exact hdisj hx (hch₂.closed hre hbmem)
  · intro hre
    exact hdisj hx (hch₂.closed hre htipmem)

/-- C7 witness: on the concrete two-block chain, advancing the root to the
tip's hash 101 returns the tip checkpoint, and the old root block 0 is no
longer reachable from the resulting chain. -/
theorem c7_advance_root_interior_w :
    ∃ h₂ cp, ckOf chainW.heap 1 = some cp ∧
      chainW.advance_root 101 = some (.ok (some cp), ⟨h₂, 1, chainW.tip⟩) ∧
      IsChain ⟨h₂, 1, chainW.tip⟩ ([0, 1].drop 1) ∧
      (∀ x ∈ [0, 1].take 1, ¬ Reaches h₂ 1 x ∧ ¬ Reaches h₂ chainW.tip x) :=
  c7_advance_root_interior isChain_chainW (by decide) (by decide) (by decide) (by decide)

/-- C8: `advance_root` on the current root's hash is a no-op: it returns
`Ok(None)` and hands back exactly the original chain — root and tip
checkpoints and all links unchanged. -/
theorem c8_advance_root_noop {c : VirtualChain} {rcp : Checkpoint}
    (hr : ckOf c.heap c.root = some rcp) :
    c.advance_root rcp.metadata.hash = some (.ok none, c) := by
  simp only [VirtualChain.advance_root, hr]
  simp

/-- C8 witness: on the concrete two-block chain, `advance_root 100` (the
root's own hash) returns `Ok(None)` with the chain unchanged. -/
theorem c8_advance_root_noop_w :
    chainW.advance_root 100 = some (.ok none, chainW) :=
  c8_advance_root_noop (rfl : ckOf chainW.heap chainW.root = some ⟨5, ⟨100, 50⟩⟩)

/-- C9: `advance_root` on a hash that belongs to no block between root and
tip returns the `HashNotFound` error carrying that hash. -/
theorem c9_advance_root_hash_not_found {c : VirtualChain} {ids : List Nat}
    {hsh : Nat} (hch : IsChain c ids)
    (hmiss : ∀ x ∈ ids, hashOf c.heap x ≠ some hsh) :
    ∃ c', c.advance_root hsh = some (.error (.HashNotFound hsh), c') := by
  obtain ⟨h₂, heq, -, -, -⟩ := advance_root_miss_spec hch hmiss
  exact ⟨⟨h₂, c.root, c.tip⟩, heq⟩

/-- C9 witness: looking for the absent hash 999 on the concrete two-block
chain fails with `HashNotFound 999`. -/
theorem c9_advance_root_hash_not_found_w :
    ∃ c', chainW.advance_root 999 = some (.error (.HashNotFound 999), c') :=
  c9_advance_root_hash_not_found isChain_chainW (by decide)

/-- C10: when `advance_root` fails with `HashNotFound`, the failure is not
atomic: the root and tip ids are kept and `root()`/`tip()` still return the
original checkpoints, but every `prev` and every `next` link of every block
from the old root through the tip has been cleared. -/
theorem c10_hash_not_found_destroys_links {c : VirtualChain} {ids : List Nat}
    {hsh : Nat} (hch : IsChain c ids)
    (hmiss : ∀ x ∈ ids, hashOf c.heap x ≠ some hsh) :
    ∃ h₂, c.advance_root hsh = some (.error (.HashNotFound hsh), ⟨h₂, c.root, c.tip⟩) ∧
      (VirtualChain.mk h₂ c.root c.tip).root_checkpoint = c.root_checkpoint ∧
      (VirtualChain.mk h₂ c.root c.tip).tip_checkpoint = c.tip_checkpoint ∧
      ∀ x ∈ ids, prevOf h₂ x = some none ∧ nextOf h₂ x = some none := by
  obtain ⟨h₂, heq, hck, hclear, -⟩ := advance_root_miss_spec hch hmiss
  refine ⟨h₂, heq, ?_, ?_, hclear⟩
  · show ckOf h₂ c.root = ckOf c.heap c.root
    exact hck c.root
  · show ckOf h₂ c.tip = ckOf c.heap c.tip
    exact hck c.tip

/-- C10 witness: the failed `advance_root 999` on the concrete two-block
chain keeps both checkpoints visible but clears every link. -/
theorem c10_hash_not_found_destroys_links_w :
    ∃ h₂, chainW.advance_root 999 =
        some (.error (.HashNotFound 999), ⟨h₂, chainW.root, chainW.tip⟩) ∧
      (VirtualChain.mk h₂ chainW.root chainW.tip).root_checkpoint =
        chainW.root_checkpoint ∧
      (VirtualChain.mk h₂ chainW.root chainW.tip).tip_checkpoint =
        chainW.tip_checkpoint ∧
      ∀ x ∈ [0, 1], prevOf h₂ x = some none ∧ nextOf h₂ x = some none :=
  c10_hash_not_found_destroys_links isChain_chainW (by decide)

end VProgs
